import Mathlib

/-!
Verification of the gocut declaration-closure analyzer (main.go).

The embedding models the Go source faithfully:
 - `Obj` stands for `types.Object` (identity is the resolved object);
 - `Ident` is an identifier occurrence (`*ast.Ident`), keyed by `uid`
   in the resolution tables, carrying its spelling;
 - `Info` holds `Uses` and `Defs` of `types.Info` as association tables;
 - `Expr` is the `ast.Expr` interface; the constructor `nilE` is the nil
   interface value, and nillable struct pointers (`FuncType.Results`,
   array lengths, slice bounds, `TypeAssertExpr.Type`) are `Option`s,
   matching the go/ast invariants (`FuncType.Params` is non-nil when
   produced by the parser, `Results` may be nil);
 - a function body, traversed in the source by `ast.Inspect` acting only
   on `*ast.Ident` nodes, is represented by its list of identifier
   occurrences in traversal order;
 - the mutable maps `visited`, `used`, `declMap` of
   `CollectUsedDeclarations` become the state `St`; `visit` becomes a
   fuel-indexed state transformer whose abort modes (`panicked` for a
   nil-pointer dereference, `nofuel` for fuel exhaustion) are explicit.
-/

structure Obj where
  oid : Nat
  name : String
deriving DecidableEq, Repr

structure Ident where
  name : String
  uid : Nat
deriving DecidableEq, Repr

/-- The `Uses` and `Defs` tables of `types.Info`, keyed by identifier
occurrence. -/
structure Info where
  uses : List (Nat × Obj)
  defs : List (Nat × Obj)
deriving DecidableEq, Repr

def tblLookup : List (Nat × Obj) → Nat → Option Obj
  | [], _ => none
  | p :: rest, u => if p.1 = u then some p.2 else tblLookup rest u

/-- `info.Uses[id]`, as the walkers read it. -/
def Info.usesOf (info : Info) (i : Ident) : Option Obj :=
  tblLookup info.uses i.uid

/-- `ref := info.Uses[id]; if ref == nil { ref = info.Defs[id] }` -/
def Info.resolve (info : Info) (i : Ident) : Option Obj :=
  match tblLookup info.uses i.uid with
  | some o => some o
  | none => tblLookup info.defs i.uid

/-- `ast.Expr`.  A field list entry (`*ast.Field`) is a pair of its name
identifiers and its type expression. -/
inductive Expr where
  | nilE : Expr
  | ident : Ident → Expr
  | star : Expr → Expr
  | arrayT : Option Expr → Expr → Expr
  | mapT : Expr → Expr → Expr
  | selector : Expr → Ident → Expr
  | funcT : List (List Ident × Expr) → Option (List (List Ident × Expr)) → Expr
  | interfaceT : List (List Ident × Expr) → Expr
  | chanT : Expr → Expr
  | ellipsis : Expr → Expr
  | structT : List (List Ident × Expr) → Expr
  | basicLit : String → Expr
  | badExpr : Expr
  | funcLit : Expr → List Ident → Expr
  | compositeLit : Expr → List Expr → Expr
  | call : Expr → List Expr → Expr
  | unary : Expr → Expr
  | binary : Expr → Expr → Expr
  | paren : Expr → Expr
  | keyValue : Expr → Expr → Expr
  | indexE : Expr → Expr → Expr
  | sliceE : Expr → Option Expr → Option Expr → Option Expr → Expr
  | typeAssert : Expr → Option Expr → Expr

/-- `ast.Spec` as scanned by `visit` (the type switch of the `GenDecl`
case handles `TypeSpec` and `ValueSpec`; `ImportSpec` falls through). -/
inductive Spec where
  | importSpec : Option Ident → String → Spec
  | typeSpec : Ident → Expr → Spec
  | valueSpec : List Ident → Option Expr → List Expr → Spec

/-- `ast.Decl` as scanned by `visit`: a `FuncDecl` (receiver fields,
name, signature, optional body given by its identifier occurrences) or a
`GenDecl` with its specs. -/
inductive Decl where
  | funcDecl : List (List Ident × Expr) → Ident → Expr → Option (List Ident) → Decl
  | genDecl : List Spec → Decl

/-- A loaded compilation unit: resolution tables, the syntax of every
file, and the entry file located among them (the source locates it by
file name and aborts when absent; the embedding carries it directly). -/
structure Program where
  info : Info
  files : List (List Decl)
  entry : List Decl

/-- The declarations of the unit in the scan order of `visit`
(`for _, file := range files { for _, decl := range file.Decls }`). -/
def Program.decls (P : Program) : List Decl := P.files.flatten

mutual

/-- All identifier occurrences inside an expression, in `ast.Inspect`
preorder (selector members, interface methods and function-literal
bodies included, as `Inspect` enters everything). -/
def exprIdents : Expr → List Ident
  | .nilE => []
  | .ident i => [i]
  | .star x => exprIdents x
  | .arrayT len elt => optIdents len ++ exprIdents elt
  | .mapT k v => exprIdents k ++ exprIdents v
  | .selector x s => exprIdents x ++ [s]
  | .funcT ps rs =>
      fieldsIdents ps ++ (match rs with | none => [] | some l => fieldsIdents l)
  | .interfaceT ms => fieldsIdents ms
  | .chanT v => exprIdents v
  | .ellipsis e => exprIdents e
  | .structT fs => fieldsIdents fs
  | .basicLit _ => []
  | .badExpr => []
  | .funcLit ty body => exprIdents ty ++ body
  | .compositeLit ty elts => exprIdents ty ++ exprIdentsList elts
  | .call f args => exprIdents f ++ exprIdentsList args
  | .unary x => exprIdents x
  | .binary x y => exprIdents x ++ exprIdents y
  | .paren x => exprIdents x
  | .keyValue k v => exprIdents k ++ exprIdents v
  | .indexE x i => exprIdents x ++ exprIdents i
  | .sliceE x lo hi mx =>
      exprIdents x ++ optIdents lo ++ optIdents hi ++ optIdents mx
  | .typeAssert x ty => exprIdents x ++ optIdents ty

def optIdents : Option Expr → List Ident
  | none => []
  | some e => exprIdents e

def exprIdentsList : List Expr → List Ident
  | [] => []
  | e :: rest => exprIdents e ++ exprIdentsList rest

def fieldsIdents : List (List Ident × Expr) → List Ident
  | [] => []
  | f :: rest => f.1 ++ exprIdents f.2 ++ fieldsIdents rest

end

def specIdents : Spec → List Ident
  | .importSpec nm _ => (match nm with | none => [] | some i => [i])
  | .typeSpec nm ty => nm :: exprIdents ty
  | .valueSpec names ty vals => names ++ optIdents ty ++ exprIdentsList vals

def declIdents : Decl → List Ident
  | .funcDecl recv name ftype body =>
      fieldsIdents recv ++ [name] ++ exprIdents ftype ++
        (match body with | none => [] | some l => l)
  | .genDecl specs => (specs.map specIdents).flatten

/-- The observable behaviour of one of the walkers: the sequence of
arguments it passes to the `visit` callback, and whether the walk hits a
nil-pointer dereference. -/
structure WalkOut where
  calls : List (Option Obj)
  panicked : Bool
deriving DecidableEq, Repr

def WalkOut.nil : WalkOut := ⟨[], false⟩

def WalkOut.one (c : Option Obj) : WalkOut := ⟨[c], false⟩

def WalkOut.panicW : WalkOut := ⟨[], true⟩

/-- Sequencing of walks: a panic aborts everything after it. -/
def WalkOut.seq (w1 w2 : WalkOut) : WalkOut :=
  if w1.panicked then w1 else ⟨w1.calls ++ w2.calls, w2.panicked⟩

mutual

/-- `visitTypeExpr` of main.go.  In the `FuncType` arm the source ranges
over `e.Params.List` and then over `e.Results.List`; `Results` is nil
for a signature without results, and selecting `.List` on the nil
pointer panics. -/
def visitTypeExpr (info : Info) : Expr → WalkOut
  | .ident i => WalkOut.one (info.usesOf i)
  | .star x => visitTypeExpr info x
  | .arrayT _ elt => visitTypeExpr info elt
  | .mapT k v => (visitTypeExpr info k).seq (visitTypeExpr info v)
  | .selector x _ => visitTypeExpr info x
  | .funcT ps rs =>
      (typeFields info ps).seq
        (match rs with
         | none => WalkOut.panicW
         | some l => typeFields info l)
  | .interfaceT _ => WalkOut.nil
  | .chanT v => visitTypeExpr info v
  | .ellipsis elt => visitTypeExpr info elt
  | _ => WalkOut.nil

def typeFields (info : Info) : List (List Ident × Expr) → WalkOut
  | [] => WalkOut.nil
  | f :: rest => (visitTypeExpr info f.2).seq (typeFields info rest)

end

mutual

/-- `visitExpr` of main.go. -/
def visitExpr (info : Info) : Expr → WalkOut
  | .compositeLit ty elts => (visitTypeExpr info ty).seq (visitExprList info elts)
  | .call f args => (visitExpr info f).seq (visitExprList info args)
  | .unary x => visitExpr info x
  | .binary x y => (visitExpr info x).seq (visitExpr info y)
  | .paren x => visitExpr info x
  | .keyValue k v => (visitExpr info k).seq (visitExpr info v)
  | .ident i => WalkOut.one (info.usesOf i)
  | .selector x _ => visitExpr info x
  | .indexE x i => (visitExpr info x).seq (visitExpr info i)
  | .sliceE x lo hi mx =>
      (((visitExpr info x).seq (optWalk info lo)).seq (optWalk info hi)).seq
        (optWalk info mx)
  | .typeAssert x _ => visitExpr info x
  | _ => WalkOut.nil

def optWalk (info : Info) : Option Expr → WalkOut
  | none => WalkOut.nil
  | some e => visitExpr info e

def visitExprList (info : Info) : List Expr → WalkOut
  | [] => WalkOut.nil
  | e :: rest => (visitExpr info e).seq (visitExprList info rest)

end

/-- How a run of the analysis ends: normally, by the panic of a walker,
or (embedding-only) with the fuel exhausted. -/
inductive Outcome where
  | ok
  | panicked
  | nofuel
deriving DecidableEq, Repr

/-- The three mutable maps of `CollectUsedDeclarations`. -/
structure St where
  visited : List Obj
  used : List String
  declMap : List (String × Decl)

structure R where
  st : St
  out : Outcome

def insertUsed (l : List String) (n : String) : List String :=
  if n ∈ l then l else n :: l

/-- `visited[obj] = true; used[obj.Name()] = true`. -/
def St.mark (s : St) (o : Obj) : St :=
  { s with visited := o :: s.visited, used := insertUsed s.used o.name }

/-- Go map update: replace the entry of the key in place, else append. -/
def mapInsert : List (String × Decl) → String → Decl → List (String × Decl)
  | [], k, d => [(k, d)]
  | p :: rest, k, d =>
      if p.1 = k then (k, d) :: rest else p :: mapInsert rest k d

def mapLookup : List (String × Decl) → String → Option Decl
  | [], _ => none
  | p :: rest, k => if p.1 = k then some p.2 else mapLookup rest k

/-- `declMap[obj.Name()] = d`. -/
def St.insertDecl (s : St) (k : String) (d : Decl) : St :=
  { s with declMap := mapInsert s.declMap k d }

/-- Sequential execution of a list of steps; the first abnormal outcome
stops the run (a Go panic unwinds the whole call). -/
def foldR {α : Type} (g : α → St → R) : List α → St → R
  | [], s => ⟨s, .ok⟩
  | a :: rest, s =>
      let r := g a s
      match r.out with
      | .ok => foldR g rest r.st
      | _ => r

/-- Feed a walker's calls to the visit callback; if the walker panicked,
the panic fires after the calls made before it (an earlier abort of a
nested call dominates). -/
def runWalk (f : Option Obj → St → R) (w : WalkOut) (s : St) : R :=
  let r := foldR f w.calls s
  ⟨r.st, if r.out = Outcome.ok ∧ w.panicked = true then Outcome.panicked else r.out⟩

/-- Sequencing of interpreter steps: an abnormal outcome short-circuits. -/
def andThen (r : R) (k : St → R) : R :=
  match r.out with
  | .ok => k r.st
  | _ => r

/-- The body of `for _, name := range s.Names` in the `ValueSpec` arm. -/
def valueSpecStep (info : Info) (f : Option Obj → St → R) (d : Decl) (obj : Obj)
    (ty : Option Expr) (vals : List Expr) (nm : Ident) (s : St) : R :=
  if nm.name = obj.name then
    andThen
      (match ty with
       | some t => runWalk f (visitTypeExpr info t) (St.insertDecl s obj.name d)
       | none => ⟨St.insertDecl s obj.name d, .ok⟩)
      (fun s2 => foldR (fun v s3 => runWalk f (visitExpr info v) s3) vals s2)
  else ⟨s, .ok⟩

/-- One spec of a `GenDecl`, as handled by the inner type switch of
`visit` (`d` is the whole `GenDecl`, which is what gets recorded). -/
def processSpec (info : Info) (f : Option Obj → St → R) (d : Decl) (obj : Obj)
    (sp : Spec) (s : St) : R :=
  match sp with
  | .importSpec _ _ => ⟨s, .ok⟩
  | .typeSpec nm ty =>
      if nm.name = obj.name then
        let s1 := St.insertDecl s obj.name d
        match ty with
        | .structT fields =>
            foldR (fun fld s2 => runWalk f (visitTypeExpr info fld.2) s2) fields s1
        | _ => ⟨s1, .ok⟩
      else ⟨s, .ok⟩
  | .valueSpec names ty vals => foldR (valueSpecStep info f d obj ty vals) names s

/-- One declaration of the scan inside `visit`. -/
def processDecl (info : Info) (f : Option Obj → St → R) (obj : Obj)
    (d : Decl) (s : St) : R :=
  match d with
  | .funcDecl _ nm _ body =>
      if nm.name = obj.name then
        let s1 := St.insertDecl s obj.name d
        match body with
        | none => ⟨s1, .ok⟩
        | some ids =>
            foldR (fun c s2 => f c s2) (ids.map (fun i => Info.resolve info i)) s1
      else ⟨s, .ok⟩
  | .genDecl specs => foldR (processSpec info f (Decl.genDecl specs) obj) specs s

/-- The recursive closure `visit` of `CollectUsedDeclarations`.  The Go
original recurses without fuel; the fuel only bounds the embedding's
recursion and is proved sufficient below (claim C1). -/
def visit (P : Program) : Nat → Option Obj → St → R
  | _, none, s => ⟨s, .ok⟩
  | fuel, some obj, s =>
      if obj ∈ s.visited then ⟨s, .ok⟩
      else
        match fuel with
        | 0 => ⟨s, .nofuel⟩
        | fuel2 + 1 =>
            foldR (processDecl P.info (fun c s2 => visit P fuel2 c s2) obj)
              P.decls (s.mark obj)

/-- All identifier occurrences of the entry file's declarations, in the
order of the seeding loop (`for _, decl := range entryAST.Decls` with
`ast.Inspect`). -/
def entryIdents (P : Program) : List Ident := (P.entry.map declIdents).flatten

/-- The seeding loop resolves each identifier with the use-else-def
fallback and visits the result. -/
def seedCalls (P : Program) : List (Option Obj) :=
  (entryIdents P).map (fun i => Info.resolve P.info i)

/-- Every object the resolution tables can produce. -/
def allObjs (P : Program) : List Obj :=
  P.info.uses.map Prod.snd ++ P.info.defs.map Prod.snd

/-- `CollectUsedDeclarations`, from the seeding loop on.  The loading of
the package and the search for the entry AST are the resolver's side of
the contract; the analysis proper starts from empty maps. -/
def CollectUsedDeclarations (P : Program) : R :=
  foldR (fun c s => visit P ((allObjs P).length + 1) c s) (seedCalls P)
    ⟨[], [], []⟩

/-- Names declared by a declaration, as the repository's test extracts
them. -/
def declNames : Decl → List String
  | .funcDecl _ nm _ _ => [nm.name]
  | .genDecl specs =>
      (specs.map (fun sp =>
        match sp with
        | .importSpec _ _ => []
        | .typeSpec nm _ => [nm.name]
        | .valueSpec names _ _ => names.map Ident.name)).flatten

/-- Does the scan of `visit` record this declaration for this name? -/
def declMatches (d : Decl) (nm : String) : Bool :=
  match d with
  | .funcDecl _ n _ _ => n.name = nm
  | .genDecl specs =>
      specs.any (fun sp =>
        match sp with
        | .importSpec _ _ => false
        | .typeSpec n _ => n.name = nm
        | .valueSpec names _ _ => names.any (fun n => n.name = nm))

/-! ### Basic facts about the map operations -/

theorem mem_insertUsed_self (l : List String) (n : String) : n ∈ insertUsed l n := by
  unfold insertUsed
  split
  case isTrue h => exact h
  case isFalse h => exact List.mem_cons_self n l

theorem insertUsed_sub (l : List String) (n : String) : l ⊆ insertUsed l n := by
  unfold insertUsed
  split
  case isTrue h => exact fun x hx => hx
  case isFalse h => exact fun x hx => List.mem_cons_of_mem n hx

theorem mem_insertUsed (l : List String) (n m : String) (h : m ∈ insertUsed l n) :
    m ∈ l ∨ m = n := by
  unfold insertUsed at h
  split at h
  case isTrue h2 => exact Or.inl h
  case isFalse h2 =>
    rcases List.mem_cons.mp h with h3 | h3
    · exact Or.inr h3
    · exact Or.inl h3

theorem mapLookup_mapInsert_self (m : List (String × Decl)) (k : String) (d : Decl) :
    mapLookup (mapInsert m k d) k = some d := by
  induction m with
  | nil => simp [mapInsert, mapLookup]
  | cons p rest ih =>
    by_cases h : p.1 = k
    · simp [mapInsert, h, mapLookup]
    · simp [mapInsert, h, mapLookup, ih]

theorem mapLookup_mapInsert_ne (m : List (String × Decl)) (k k2 : String) (d : Decl)
    (h : k2 ≠ k) : mapLookup (mapInsert m k d) k2 = mapLookup m k2 := by
  have hkk : ¬ k = k2 := fun h3 => h h3.symm
  induction m with
  | nil => simp [mapInsert, mapLookup, hkk]
  | cons q rest ih =>
    by_cases h2 : q.1 = k
    · simp [mapInsert, h2, mapLookup, hkk]
    · by_cases h3 : q.1 = k2
      · simp [mapInsert, h2, mapLookup, h3, h]
      · simp [mapInsert, h2, mapLookup, h3, ih]

theorem mem_mapInsert (m : List (String × Decl)) (k : String) (d : Decl)
    (p : String × Decl) (h : p ∈ mapInsert m k d) : p ∈ m ∨ p = (k, d) := by
  induction m with
  | nil =>
    simp [mapInsert] at h
    exact Or.inr h
  | cons q rest ih =>
    by_cases h2 : q.1 = k
    · simp [mapInsert, h2] at h
      rcases h with h | h
      · exact Or.inr h
      · exact Or.inl (List.mem_cons_of_mem q h)
    · simp [mapInsert, h2] at h
      rcases h with h | h
      · exact Or.inl (by simp [h])
      · rcases ih h with h3 | h3
        · exact Or.inl (List.mem_cons_of_mem q h3)
        · exact Or.inr h3

theorem mapInsert_mem_preserve (m : List (String × Decl)) (k nm : String) (d d0 : Decl)
    (h : (nm, d0) ∈ m) (hk : k = nm → d = d0) : (nm, d0) ∈ mapInsert m k d := by
  induction m with
  | nil => cases h
  | cons q rest ih =>
    rcases List.mem_cons.mp h with h3 | h3
    · by_cases h2 : q.1 = k
      · have h4 : k = nm := by rw [← h3] at h2; simpa using h2.symm
        have h5 : d = d0 := hk h4
        rw [show mapInsert (q :: rest) k d = (k, d) :: rest from by simp [mapInsert, h2]]
        rw [h4, h5]
        exact List.mem_cons_self _ _
      · rw [show mapInsert (q :: rest) k d = q :: mapInsert rest k d from by
              simp [mapInsert, h2]]
        exact List.mem_cons.mpr (Or.inl h3)
    · by_cases h2 : q.1 = k
      · rw [show mapInsert (q :: rest) k d = (k, d) :: rest from by simp [mapInsert, h2]]
        exact List.mem_cons_of_mem _ h3
      · rw [show mapInsert (q :: rest) k d = q :: mapInsert rest k d from by
              simp [mapInsert, h2]]
        exact List.mem_cons_of_mem _ (ih h3)

theorem keys_mapInsert (m : List (String × Decl)) (k : String) (d : Decl) :
    (mapInsert m k d).map Prod.fst = m.map Prod.fst ∨
      ((mapInsert m k d).map Prod.fst = m.map Prod.fst ++ [k] ∧ k ∉ m.map Prod.fst) := by
  induction m with
  | nil =>
    right
    refine ⟨by simp [mapInsert], by simp⟩
  | cons q rest ih =>
    by_cases h2 : q.1 = k
    · left
      simp [mapInsert, h2]
    · rcases ih with h3 | h3
      · left
        simp [mapInsert, h2, h3]
      · right
        refine ⟨by simp [mapInsert, h2, h3.1], ?_⟩
        simp only [List.map_cons, List.mem_cons]
        push_neg
        exact ⟨fun h4 => h2 h4.symm, h3.2⟩

theorem nodup_keys_mapInsert (m : List (String × Decl)) (k : String) (d : Decl)
    (h : (m.map Prod.fst).Nodup) : ((mapInsert m k d).map Prod.fst).Nodup := by
  rcases keys_mapInsert m k d with h2 | h2
  · rw [h2]; exact h
  · rw [h2.1]
    simp [List.nodup_append, h, h2.2]

theorem mapLookup_isSome_mem (m : List (String × Decl)) (k : String)
    (h : (mapLookup m k).isSome) : k ∈ m.map Prod.fst := by
  induction m with
  | nil => simp [mapLookup] at h
  | cons q rest ih =>
    by_cases h2 : q.1 = k
    · simp [h2.symm]
    · simp [mapLookup, h2] at h
      simp [ih h]

theorem mem_keys_mapLookup_isSome (m : List (String × Decl)) (k : String)
    (h : k ∈ m.map Prod.fst) : (mapLookup m k).isSome := by
  induction m with
  | nil => simp at h
  | cons q rest ih =>
    by_cases h2 : q.1 = k
    · simp [mapLookup, h2]
    · simp [mapLookup, h2]
      rcases List.mem_map.mp h with ⟨p, hp, he⟩
      rcases List.mem_cons.mp hp with h3 | h3
      · exact absurd (by rw [h3] at he; exact he) h2
      · exact ih (List.mem_map.mpr ⟨p, h3, he⟩)

theorem tblLookup_mem (t : List (Nat × Obj)) (u : Nat) (o : Obj)
    (h : tblLookup t u = some o) : o ∈ t.map Prod.snd := by
  induction t with
  | nil => simp [tblLookup] at h
  | cons p rest ih =>
    by_cases h2 : p.1 = u
    · simp [tblLookup, h2] at h
      simp [h]
    · simp [tblLookup, h2] at h
      simp [ih h]

theorem resolve_mem_allObjs (P : Program) (i : Ident) (o : Obj)
    (h : Info.resolve P.info i = some o) : o ∈ allObjs P := by
  unfold Info.resolve at h
  unfold allObjs
  rcases h2 : tblLookup P.info.uses i.uid with _ | o2
  · rw [h2] at h
    exact List.mem_append.mpr (Or.inr (tblLookup_mem _ _ _ h))
  · rw [h2] at h
    simp at h
    subst h
    exact List.mem_append.mpr (Or.inl (tblLookup_mem _ _ _ h2))

theorem usesOf_resolve (info : Info) (i : Ident) (o : Obj)
    (h : Info.usesOf info i = some o) : Info.resolve info i = some o := by
  unfold Info.usesOf at h
  unfold Info.resolve
  rw [h]

/-! ### Generic lemmas about the sequential runner -/

theorem foldR_cons {α : Type} (g : α → St → R) (a : α) (l : List α) (s : St) :
    foldR g (a :: l) s =
      (match (g a s).out with
       | .ok => foldR g l (g a s).st
       | _ => g a s) := rfl

theorem foldR_cons_ok {α : Type} (g : α → St → R) (a : α) (l : List α) (s : St)
    (h : (g a s).out = .ok) : foldR g (a :: l) s = foldR g l (g a s).st := by
  rw [foldR_cons, h]

theorem foldR_cons_abort {α : Type} (g : α → St → R) (a : α) (l : List α) (s : St)
    (h : (g a s).out ≠ .ok) : foldR g (a :: l) s = g a s := by
  rw [foldR_cons]
  cases h2 : (g a s).out
  case ok => exact absurd h2 h
  case panicked => rfl
  case nofuel => rfl

theorem foldR_rel {α : Type} (g : α → St → R) (Q : St → St → Prop)
    (hrefl : ∀ s, Q s s) (htrans : ∀ s1 s2 s3, Q s1 s2 → Q s2 s3 → Q s1 s3) :
    ∀ (l : List α), (∀ a ∈ l, ∀ s, Q s (g a s).st) → ∀ s, Q s (foldR g l s).st := by
  intro l
  induction l with
  | nil => intro _ s; exact hrefl s
  | cons a rest ih =>
    intro hg s
    by_cases h2 : (g a s).out = .ok
    · rw [foldR_cons_ok g a rest s h2]
      exact htrans _ _ _ (hg a (List.mem_cons_self a rest) s)
        (ih (fun b hb s2 => hg b (List.mem_cons_of_mem a hb) s2) _)
    · rw [foldR_cons_abort g a rest s h2]
      exact hg a (List.mem_cons_self a rest) s

theorem foldR_exec {α : Type} (g : α → St → R) (Inv Ppost : St → Prop) :
    ∀ (l : List α),
    (∀ b ∈ l, ∀ s, Inv s → Inv (g b s).st) →
    (∀ b ∈ l, ∀ s, Ppost s → Ppost (g b s).st) →
    ∀ a ∈ l, (∀ s, Inv s → (g a s).out = .ok → Ppost (g a s).st) →
    ∀ s, Inv s → (foldR g l s).out = .ok → Ppost (foldR g l s).st := by
  intro l
  induction l with
  | nil => intro _ _ a ha; cases ha
  | cons b rest ih =>
    intro hinv hmono a ha hstep s h0 hok
    have hbok : (g b s).out = .ok := by
      by_contra h2
      rw [foldR_cons_abort g b rest s h2] at hok
      exact h2 hok
    rw [foldR_cons_ok g b rest s hbok] at hok ⊢
    rcases List.mem_cons.mp ha with h3 | h3
    · subst h3
      have hp : Ppost (g a s).st := hstep s h0 hbok
      exact foldR_rel g (fun s1 s2 => Ppost s1 → Ppost s2) (fun _ h => h)
        (fun _ _ _ hq1 hq2 hp2 => hq2 (hq1 hp2)) rest
        (fun c hc s2 hp2 => hmono c (List.mem_cons_of_mem a hc) s2 hp2) (g a s).st hp
    · exact ih (fun c hc => hinv c (List.mem_cons_of_mem b hc))
        (fun c hc => hmono c (List.mem_cons_of_mem b hc)) a h3 hstep (g b s).st
        (hinv b (List.mem_cons_self b rest) s h0) hok

theorem foldR_jump {α : Type} (g : α → St → R) (Trig Ppost : St → Prop) :
    ∀ (l : List α),
    (∀ b ∈ l, ∀ s, ¬ Trig s → (g b s).out = .ok → Trig (g b s).st → Ppost (g b s).st) →
    (∀ b ∈ l, ∀ s, Trig s → Trig (g b s).st) →
    (∀ b ∈ l, ∀ s, Ppost s → Ppost (g b s).st) →
    ∀ s, ¬ Trig s → (foldR g l s).out = .ok → Trig (foldR g l s).st →
    Ppost (foldR g l s).st := by
  intro l
  induction l with
  | nil => intro _ _ _ s h0 _ h2; exact absurd h2 h0
  | cons b rest ih =>
    intro hfire htrig hmono s h0 hok htr
    have hbok : (g b s).out = .ok := by
      by_contra h2
      rw [foldR_cons_abort g b rest s h2] at hok
      exact h2 hok
    rw [foldR_cons_ok g b rest s hbok] at hok htr ⊢
    by_cases h3 : Trig (g b s).st
    · have hp : Ppost (g b s).st := hfire b (List.mem_cons_self b rest) s h0 hbok h3
      exact foldR_rel g (fun s1 s2 => Ppost s1 → Ppost s2) (fun _ h => h)
        (fun _ _ _ h1 h2 hp2 => h2 (h1 hp2)) rest
        (fun c hc s2 => hmono c (List.mem_cons_of_mem b hc) s2) (g b s).st hp
    · exact ih (fun c hc => hfire c (List.mem_cons_of_mem b hc))
        (fun c hc => htrig c (List.mem_cons_of_mem b hc))
        (fun c hc => hmono c (List.mem_cons_of_mem b hc)) (g b s).st h3 hok htr

theorem runWalk_st (f : Option Obj → St → R) (w : WalkOut) (s : St) :
    (runWalk f w s).st = (foldR f w.calls s).st := rfl

theorem runWalk_ok_decomp (f : Option Obj → St → R) (w : WalkOut) (s : St)
    (h : (runWalk f w s).out = .ok) :
    (foldR f w.calls s).out = .ok ∧ w.panicked = false := by
  unfold runWalk at h
  simp only [] at h
  split at h
  · cases h
  · constructor
    · exact h
    · rename_i h3
      rw [h] at h3
      simpa using h3

theorem runWalk_not_nofuel (f : Option Obj → St → R) (w : WalkOut) (s : St)
    (h : (foldR f w.calls s).out ≠ .nofuel) : (runWalk f w s).out ≠ .nofuel := by
  unfold runWalk
  simp only []
  split
  · simp
  · exact h

/-! ### Where the walkers' calls come from: always `info.Uses` lookups of
identifiers occurring in the walked expression -/

theorem seq_calls (w1 w2 : WalkOut) (c : Option Obj) (hc : c ∈ (w1.seq w2).calls) :
    c ∈ w1.calls ∨ c ∈ w2.calls := by
  unfold WalkOut.seq at hc
  split at hc
  · exact Or.inl hc
  · exact List.mem_append.mp hc

mutual

theorem visitTypeExpr_calls (info : Info) :
    ∀ (e : Expr), ∀ c ∈ (visitTypeExpr info e).calls,
      ∃ i, i ∈ exprIdents e ∧ c = Info.usesOf info i
  | .nilE => by intro c hc; simp [visitTypeExpr, WalkOut.nil] at hc
  | .ident i => by
      intro c hc
      simp [visitTypeExpr, WalkOut.one] at hc
      exact ⟨i, by simp [exprIdents], hc⟩
  | .star x => by
      intro c hc
      simp only [visitTypeExpr] at hc
      rcases visitTypeExpr_calls info x c hc with ⟨i, hi, he⟩
      exact ⟨i, by simpa [exprIdents] using hi, he⟩
  | .arrayT len elt => by
      intro c hc
      simp only [visitTypeExpr] at hc
      rcases visitTypeExpr_calls info elt c hc with ⟨i, hi, he⟩
      exact ⟨i, by simp [exprIdents, List.mem_append, hi], he⟩
  | .mapT k v => by
      intro c hc
      rcases seq_calls _ _ c hc with h | h
      · rcases visitTypeExpr_calls info k c h with ⟨i, hi, he⟩
        exact ⟨i, by simp [exprIdents, List.mem_append, hi], he⟩
      · rcases visitTypeExpr_calls info v c h with ⟨i, hi, he⟩
        exact ⟨i, by simp [exprIdents, List.mem_append, hi], he⟩
  | .selector x sel => by
      intro c hc
      simp only [visitTypeExpr] at hc
      rcases visitTypeExpr_calls info x c hc with ⟨i, hi, he⟩
      exact ⟨i, by simp [exprIdents, List.mem_append, hi], he⟩
  | .funcT ps none => by
      intro c hc
      rcases seq_calls _ _ c hc with h | h
      · rcases typeFields_calls info ps c h with ⟨i, hi, he⟩
        exact ⟨i, by simp [exprIdents, List.mem_append, hi], he⟩
      · simp [WalkOut.panicW] at h
  | .funcT ps (some l) => by
      intro c hc
      rcases seq_calls _ _ c hc with h | h
      · rcases typeFields_calls info ps c h with ⟨i, hi, he⟩
        exact ⟨i, by simp [exprIdents, List.mem_append, hi], he⟩
      · rcases typeFields_calls info l c h with ⟨i, hi, he⟩
        exact ⟨i, by simp [exprIdents, List.mem_append, hi], he⟩
  | .interfaceT ms => by intro c hc; simp [visitTypeExpr, WalkOut.nil] at hc
  | .chanT v => by
      intro c hc
      simp only [visitTypeExpr] at hc
      rcases visitTypeExpr_calls info v c hc with ⟨i, hi, he⟩
      exact ⟨i, by simpa [exprIdents] using hi, he⟩
  | .ellipsis elt => by
      intro c hc
      simp only [visitTypeExpr] at hc
      rcases visitTypeExpr_calls info elt c hc with ⟨i, hi, he⟩
      exact ⟨i, by simpa [exprIdents] using hi, he⟩
  | .structT fs => by intro c hc; simp [visitTypeExpr, WalkOut.nil] at hc
  | .basicLit v => by intro c hc; simp [visitTypeExpr, WalkOut.nil] at hc
  | .badExpr => by intro c hc; simp [visitTypeExpr, WalkOut.nil] at hc
  | .funcLit ty body => by intro c hc; simp [visitTypeExpr, WalkOut.nil] at hc
  | .compositeLit ty elts => by intro c hc; simp [visitTypeExpr, WalkOut.nil] at hc
  | .call f args => by intro c hc; simp [visitTypeExpr, WalkOut.nil] at hc
  | .unary x => by intro c hc; simp [visitTypeExpr, WalkOut.nil] at hc
  | .binary x y => by intro c hc; simp [visitTypeExpr, WalkOut.nil] at hc
  | .paren x => by intro c hc; simp [visitTypeExpr, WalkOut.nil] at hc
  | .keyValue k v => by intro c hc; simp [visitTypeExpr, WalkOut.nil] at hc
  | .indexE x i => by intro c hc; simp [visitTypeExpr, WalkOut.nil] at hc
  | .sliceE x lo hi mx => by intro c hc; simp [visitTypeExpr, WalkOut.nil] at hc
  | .typeAssert x ty => by intro c hc; simp [visitTypeExpr, WalkOut.nil] at hc

theorem typeFields_calls (info : Info) :
    ∀ (fs : List (List Ident × Expr)), ∀ c ∈ (typeFields info fs).calls,
      ∃ i, i ∈ fieldsIdents fs ∧ c = Info.usesOf info i
  | [] => by intro c hc; simp [typeFields, WalkOut.nil] at hc
  | f :: rest => by
      intro c hc
      rcases seq_calls _ _ c hc with h | h
      · rcases visitTypeExpr_calls info f.2 c h with ⟨i, hi, he⟩
        exact ⟨i, by simp [fieldsIdents, List.mem_append, hi], he⟩
      · rcases typeFields_calls info rest c h with ⟨i, hi, he⟩
        exact ⟨i, by simp [fieldsIdents, List.mem_append, hi], he⟩

end

mutual

theorem visitExpr_calls (info : Info) :
    ∀ (e : Expr), ∀ c ∈ (visitExpr info e).calls,
      ∃ i, i ∈ exprIdents e ∧ c = Info.usesOf info i
  | .compositeLit ty elts => by
      intro c hc
      rcases seq_calls _ _ c hc with h | h
      · rcases visitTypeExpr_calls info ty c h with ⟨i, hi, he⟩
        exact ⟨i, by simp [exprIdents, List.mem_append, hi], he⟩
      · rcases visitExprList_calls info elts c h with ⟨i, hi, he⟩
        exact ⟨i, by simp [exprIdents, List.mem_append, hi], he⟩
  | .call f args => by
      intro c hc
      rcases seq_calls _ _ c hc with h | h
      · rcases visitExpr_calls info f c h with ⟨i, hi, he⟩
        exact ⟨i, by simp [exprIdents, List.mem_append, hi], he⟩
      · rcases visitExprList_calls info args c h with ⟨i, hi, he⟩
        exact ⟨i, by simp [exprIdents, List.mem_append, hi], he⟩
  | .unary x => by
      intro c hc
      simp only [visitExpr] at hc
      rcases visitExpr_calls info x c hc with ⟨i, hi, he⟩
      exact ⟨i, by simpa [exprIdents] using hi, he⟩
  | .binary x y => by
      intro c hc
      rcases seq_calls _ _ c hc with h | h
      · rcases visitExpr_calls info x c h with ⟨i, hi, he⟩
        exact ⟨i, by simp [exprIdents, List.mem_append, hi], he⟩
      · rcases visitExpr_calls info y c h with ⟨i, hi, he⟩
        exact ⟨i, by simp [exprIdents, List.mem_append, hi], he⟩
  | .paren x => by
      intro c hc
      simp only [visitExpr] at hc
      rcases visitExpr_calls info x c hc with ⟨i, hi, he⟩
      exact ⟨i, by simpa [exprIdents] using hi, he⟩
  | .keyValue k v => by
      intro c hc
      rcases seq_calls _ _ c hc with h | h
      · rcases visitExpr_calls info k c h with ⟨i, hi, he⟩
        exact ⟨i, by simp [exprIdents, List.mem_append, hi], he⟩
      · rcases visitExpr_calls info v c h with ⟨i, hi, he⟩
        exact ⟨i, by simp [exprIdents, List.mem_append, hi], he⟩
  | .ident i => by
      intro c hc
      simp [visitExpr, WalkOut.one] at hc
      exact ⟨i, by simp [exprIdents], hc⟩
  | .selector x sel => by
      intro c hc
      simp only [visitExpr] at hc
      rcases visitExpr_calls info x c hc with ⟨i, hi, he⟩
      exact ⟨i, by simp [exprIdents, List.mem_append, hi], he⟩
  | .indexE x idx => by
      intro c hc
      rcases seq_calls _ _ c hc with h | h
      · rcases visitExpr_calls info x c h with ⟨i, hi, he⟩
        exact ⟨i, by simp [exprIdents, List.mem_append, hi], he⟩
      · rcases visitExpr_calls info idx c h with ⟨i, hi, he⟩
        exact ⟨i, by simp [exprIdents, List.mem_append, hi], he⟩
  | .sliceE x lo hi mx => by
      intro c hc
      rcases seq_calls _ _ c hc with h | h
      · rcases seq_calls _ _ c h with h2 | h2
        · rcases seq_calls _ _ c h2 with h3 | h3
          · rcases visitExpr_calls info x c h3 with ⟨i, hi2, he⟩
            exact ⟨i, by simp [exprIdents, List.mem_append, hi2], he⟩
          · rcases optWalk_calls info lo c h3 with ⟨i, hi2, he⟩
            exact ⟨i, by simp [exprIdents, List.mem_append, hi2], he⟩
        · rcases optWalk_calls info hi c h2 with ⟨i, hi2, he⟩
          exact ⟨i, by simp [exprIdents, List.mem_append, hi2], he⟩
      · rcases optWalk_calls info mx c h with ⟨i, hi2, he⟩
        exact ⟨i, by simp [exprIdents, List.mem_append, hi2], he⟩
  | .typeAssert x ty => by
      intro c hc
      simp only [visitExpr] at hc
      rcases visitExpr_calls info x c hc with ⟨i, hi, he⟩
      exact ⟨i, by simp [exprIdents, List.mem_append, hi], he⟩
  | .nilE => by intro c hc; simp [visitExpr, WalkOut.nil] at hc
  | .star x => by intro c hc; simp [visitExpr, WalkOut.nil] at hc
  | .arrayT len elt => by intro c hc; simp [visitExpr, WalkOut.nil] at hc
  | .mapT k v => by intro c hc; simp [visitExpr, WalkOut.nil] at hc
  | .funcT ps rs => by intro c hc; simp [visitExpr, WalkOut.nil] at hc
  | .interfaceT ms => by intro c hc; simp [visitExpr, WalkOut.nil] at hc
  | .chanT v => by intro c hc; simp [visitExpr, WalkOut.nil] at hc
  | .ellipsis elt => by intro c hc; simp [visitExpr, WalkOut.nil] at hc
  | .structT fs => by intro c hc; simp [visitExpr, WalkOut.nil] at hc
  | .basicLit v => by intro c hc; simp [visitExpr, WalkOut.nil] at hc
  | .badExpr => by intro c hc; simp [visitExpr, WalkOut.nil] at hc
  | .funcLit ty body => by intro c hc; simp [visitExpr, WalkOut.nil] at hc

theorem optWalk_calls (info : Info) :
    ∀ (oe : Option Expr), ∀ c ∈ (optWalk info oe).calls,
      ∃ i, i ∈ optIdents oe ∧ c = Info.usesOf info i
  | none => by intro c hc; simp [optWalk, WalkOut.nil] at hc
  | some e => by
      intro c hc
      simp only [optWalk] at hc
      rcases visitExpr_calls info e c hc with ⟨i, hi, he⟩
      exact ⟨i, by simpa [optIdents] using hi, he⟩

theorem visitExprList_calls (info : Info) :
    ∀ (l : List Expr), ∀ c ∈ (visitExprList info l).calls,
      ∃ i, i ∈ exprIdentsList l ∧ c = Info.usesOf info i
  | [] => by intro c hc; simp [visitExprList, WalkOut.nil] at hc
  | e :: rest => by
      intro c hc
      rcases seq_calls _ _ c hc with h | h
      · rcases visitExpr_calls info e c h with ⟨i, hi, he⟩
        exact ⟨i, by simp [exprIdentsList, List.mem_append, hi], he⟩
      · rcases visitExprList_calls info rest c h with ⟨i, hi, he⟩
        exact ⟨i, by simp [exprIdentsList, List.mem_append, hi], he⟩

end

/-! ### The master preservation lemma for visit -/

theorem andThen_rel (Q : St → St → Prop)
    (htrans : ∀ s1 s2 s3, Q s1 s2 → Q s2 s3 → Q s1 s3)
    (r : R) (k : St → R) (s : St) (h1 : Q s r.st) (h2 : ∀ s2, Q s2 (k s2).st) :
    Q s (andThen r k).st := by
  unfold andThen
  rcases h3 : r.out with _ | _ | _
  · exact htrans _ _ _ h1 (h2 r.st)
  · exact h1
  · exact h1

theorem andThen_abort (r : R) (k : St → R) (h : r.out ≠ .ok) : andThen r k = r := by
  unfold andThen
  rcases h3 : r.out with _ | _ | _
  · exact absurd h3 h
  · rfl
  · rfl

theorem andThen_ok (r : R) (k : St → R) (h : (andThen r k).out = .ok) :
    r.out = .ok ∧ andThen r k = k r.st := by
  have h4 : r.out = .ok := by
    by_contra h2
    rw [andThen_abort r k h2] at h
    exact h2 h
  refine ⟨h4, ?_⟩
  unfold andThen
  rw [h4]

/-- A call argument can only carry objects of the class `A`. -/
def GoodCall (A : Obj → Prop) (c : Option Obj) : Prop := ∀ o, c = some o → A o

/-- Every resolution of an identifier occurring in a scanned declaration
lands in `A`. -/
def GoodProg (A : Obj → Prop) (P : Program) : Prop :=
  ∀ d ∈ P.decls, ∀ i ∈ declIdents d, ∀ o, Info.resolve P.info i = some o → A o

/-- Hypotheses under which a relation `Q` on states is preserved by the
whole traversal: `Q` is a preorder, it absorbs the marking of a fresh
`A`-object, and it absorbs the recording of a scanned declaration under
a key it matches. -/
structure RelCtx (P : Program) (A : Obj → Prop) (Q : St → St → Prop) : Prop where
  good : GoodProg A P
  qrefl : ∀ s, Q s s
  qtrans : ∀ s1 s2 s3, Q s1 s2 → Q s2 s3 → Q s1 s3
  qmark : ∀ s o, A o → o ∉ s.visited → Q s (s.mark o)
  qins : ∀ s k d, d ∈ P.decls → declMatches d k = true → Q s (St.insertDecl s k d)

theorem mem_fieldsIdents (i : Ident) (fld : List Ident × Expr)
    (fs : List (List Ident × Expr)) (hf : fld ∈ fs) (hi : i ∈ exprIdents fld.2) :
    i ∈ fieldsIdents fs := by
  induction fs with
  | nil => cases hf
  | cons g rest ih =>
    rcases List.mem_cons.mp hf with h | h
    · subst h
      simp [fieldsIdents, List.mem_append, hi]
    · simp [fieldsIdents, List.mem_append, ih h]

theorem mem_exprIdentsList (i : Ident) (e : Expr) (l : List Expr)
    (he : e ∈ l) (hi : i ∈ exprIdents e) : i ∈ exprIdentsList l := by
  induction l with
  | nil => cases he
  | cons g rest ih =>
    rcases List.mem_cons.mp he with h | h
    · subst h
      simp [exprIdentsList, List.mem_append, hi]
    · simp [exprIdentsList, List.mem_append, ih h]

theorem mem_specIdents_decl (sp : Spec) (specs : List Spec) (i : Ident)
    (hs : sp ∈ specs) (hi : i ∈ specIdents sp) : i ∈ declIdents (Decl.genDecl specs) := by
  simp only [declIdents]
  exact List.mem_flatten.mpr ⟨specIdents sp, List.mem_map_of_mem _ hs, hi⟩

theorem goodcall_of_uses (P : Program) (A : Obj → Prop) (hA : GoodProg A P)
    (d : Decl) (hd : d ∈ P.decls) (i : Ident) (hi : i ∈ declIdents d)
    (c : Option Obj) (hc : c = Info.usesOf P.info i) : GoodCall A c := by
  intro o ho
  rw [hc] at ho
  exact hA d hd i hi o (usesOf_resolve _ _ _ ho)

theorem goodcall_of_resolve (P : Program) (A : Obj → Prop) (hA : GoodProg A P)
    (d : Decl) (hd : d ∈ P.decls) (i : Ident) (hi : i ∈ declIdents d) :
    GoodCall A (Info.resolve P.info i) :=
  fun o ho => hA d hd i hi o ho

theorem runWalk_rel (P : Program) (A : Obj → Prop) (Q : St → St → Prop)
    (H : RelCtx P A Q) (f : Option Obj → St → R)
    (hf : ∀ c s, GoodCall A c → Q s (f c s).st)
    (w : WalkOut) (hw : ∀ c ∈ w.calls, GoodCall A c) (s : St) :
    Q s (runWalk f w s).st := by
  rw [runWalk_st]
  exact foldR_rel f Q H.qrefl H.qtrans w.calls (fun c hc s2 => hf c s2 (hw c hc)) s

theorem declMatches_funcDecl (recv : List (List Ident × Expr)) (nm : Ident)
    (ftype : Expr) (body : Option (List Ident)) (k : String) (h : nm.name = k) :
    declMatches (Decl.funcDecl recv nm ftype body) k = true := by
  simp [declMatches, h]

theorem declMatches_typeSpec (specs : List Spec) (nm : Ident) (ty : Expr)
    (hsp : Spec.typeSpec nm ty ∈ specs) (k : String) (h : nm.name = k) :
    declMatches (Decl.genDecl specs) k = true := by
  simp only [declMatches, List.any_eq_true]
  refine ⟨Spec.typeSpec nm ty, hsp, ?_⟩
  simp [h]

theorem declMatches_valueSpec (specs : List Spec) (names : List Ident)
    (ty : Option Expr) (vals : List Expr)
    (hsp : Spec.valueSpec names ty vals ∈ specs)
    (nm : Ident) (hnm : nm ∈ names) (k : String) (h : nm.name = k) :
    declMatches (Decl.genDecl specs) k = true := by
  simp only [declMatches, List.any_eq_true]
  refine ⟨Spec.valueSpec names ty vals, hsp, ?_⟩
  simp only [List.any_eq_true]
  exact ⟨nm, hnm, by simp [h]⟩

theorem valueSpecStep_rel (P : Program) (A : Obj → Prop) (Q : St → St → Prop)
    (H : RelCtx P A Q) (f : Option Obj → St → R)
    (hf : ∀ c s, GoodCall A c → Q s (f c s).st)
    (specs : List Spec) (obj : Obj) (names : List Ident) (ty : Option Expr)
    (vals : List Expr) (hd : Decl.genDecl specs ∈ P.decls)
    (hsp : Spec.valueSpec names ty vals ∈ specs)
    (nm : Ident) (hnm : nm ∈ names) (s : St) :
    Q s (valueSpecStep P.info f (Decl.genDecl specs) obj ty vals nm s).st := by
  unfold valueSpecStep
  by_cases h : nm.name = obj.name
  case neg =>
    rw [if_neg h]
    exact H.qrefl s
  case pos =>
    rw [if_pos h]
    have hmatch := declMatches_valueSpec specs names ty vals hsp nm hnm obj.name h
    have hQins : ∀ s2 : St, Q s2 (St.insertDecl s2 obj.name (Decl.genDecl specs)) :=
      fun s2 => H.qins s2 obj.name _ hd hmatch
    have hvals : ∀ s2 : St,
        Q s2 ((foldR (fun v s3 => runWalk f (visitExpr P.info v) s3) vals s2)).st := by
      intro s2
      refine foldR_rel _ Q H.qrefl H.qtrans vals ?_ s2
      intro v hv s3
      refine runWalk_rel P A Q H f hf _ ?_ s3
      intro c hc
      rcases visitExpr_calls P.info v c hc with ⟨i, hi, he⟩
      refine goodcall_of_uses P A H.good _ hd i ?_ c he
      refine mem_specIdents_decl _ specs i hsp ?_
      simp only [specIdents]
      have h2 : i ∈ exprIdentsList vals := mem_exprIdentsList i v vals hv hi
      simp [List.mem_append, h2]
    refine andThen_rel Q H.qtrans _ _ s ?_ hvals
    rcases ty with _ | t
    · exact hQins s
    · refine H.qtrans _ _ _ (hQins s) ?_
      refine runWalk_rel P A Q H f hf _ ?_ _
      intro c hc
      rcases visitTypeExpr_calls P.info t c hc with ⟨i, hi, he⟩
      refine goodcall_of_uses P A H.good _ hd i ?_ c he
      refine mem_specIdents_decl _ specs i hsp ?_
      simp only [specIdents]
      have h2 : i ∈ optIdents (some t) := by simpa [optIdents] using hi
      simp [List.mem_append, h2]

theorem processSpec_rel (P : Program) (A : Obj → Prop) (Q : St → St → Prop)
    (H : RelCtx P A Q) (f : Option Obj → St → R)
    (hf : ∀ c s, GoodCall A c → Q s (f c s).st)
    (specs : List Spec) (obj : Obj) (hd : Decl.genDecl specs ∈ P.decls)
    (sp : Spec) (hsp : sp ∈ specs) (s : St) :
    Q s (processSpec P.info f (Decl.genDecl specs) obj sp s).st := by
  rcases sp with ⟨onm, path⟩ | ⟨nm, ty⟩ | ⟨names, ty, vals⟩
  · exact H.qrefl s
  · simp only [processSpec]
    by_cases h : nm.name = obj.name
    case neg =>
      rw [if_neg h]
      exact H.qrefl s
    case pos =>
      rw [if_pos h]
      have hmatch := declMatches_typeSpec specs nm ty hsp obj.name h
      have hQ1 := H.qins s obj.name (Decl.genDecl specs) hd hmatch
      split
      · rename_i fields
        refine H.qtrans _ _ _ hQ1 ?_
        refine foldR_rel _ Q H.qrefl H.qtrans fields ?_ _
        intro fld hfld s3
        refine runWalk_rel P A Q H f hf _ ?_ s3
        intro c hc
        rcases visitTypeExpr_calls P.info fld.2 c hc with ⟨i, hi, he⟩
        refine goodcall_of_uses P A H.good _ hd i ?_ c he
        refine mem_specIdents_decl _ specs i hsp ?_
        simp only [specIdents]
        have h2 : i ∈ exprIdents (Expr.structT fields) := by
          simp only [exprIdents]
          exact mem_fieldsIdents i fld fields hfld hi
        exact List.mem_cons_of_mem nm h2
      · exact hQ1
  · simp only [processSpec]
    refine foldR_rel _ Q H.qrefl H.qtrans names ?_ s
    intro nm hnm s2
    exact valueSpecStep_rel P A Q H f hf specs obj names ty vals hd hsp nm hnm s2

theorem processDecl_rel (P : Program) (A : Obj → Prop) (Q : St → St → Prop)
    (H : RelCtx P A Q) (f : Option Obj → St → R)
    (hf : ∀ c s, GoodCall A c → Q s (f c s).st)
    (obj : Obj) (d : Decl) (hd : d ∈ P.decls) (s : St) :
    Q s (processDecl P.info f obj d s).st := by
  rcases d with ⟨recv, nm, ftype, body⟩ | specs
  · simp only [processDecl]
    by_cases h : nm.name = obj.name
    case neg =>
      rw [if_neg h]
      exact H.qrefl s
    case pos =>
      rw [if_pos h]
      have hmatch := declMatches_funcDecl recv nm ftype body obj.name h
      have hQ1 := H.qins s obj.name _ hd hmatch
      rcases body with _ | ids
      · exact hQ1
      · refine H.qtrans _ _ _ hQ1 ?_
        refine foldR_rel _ Q H.qrefl H.qtrans _ ?_ _
        intro c hc s3
        refine hf c s3 ?_
        rcases List.mem_map.mp hc with ⟨i, hi, he⟩
        rw [← he]
        refine goodcall_of_resolve P A H.good _ hd i ?_
        simp [declIdents, List.mem_append, hi]
  · simp only [processDecl]
    refine foldR_rel _ Q H.qrefl H.qtrans specs ?_ s
    intro sp hsp s2
    exact processSpec_rel P A Q H f hf specs obj hd sp hsp s2

theorem visit_rel (P : Program) (A : Obj → Prop) (Q : St → St → Prop)
    (H : RelCtx P A Q) :
    ∀ (fuel : Nat) (c : Option Obj) (s : St), GoodCall A c → Q s (visit P fuel c s).st := by
  intro fuel
  induction fuel with
  | zero =>
    intro c s hc
    rcases c with _ | obj
    · exact H.qrefl s
    · simp only [visit]
      by_cases h : obj ∈ s.visited
      · rw [if_pos h]
        exact H.qrefl s
      · rw [if_neg h]
        exact H.qrefl s
  | succ fuel2 ih =>
    intro c s hc
    rcases c with _ | obj
    · exact H.qrefl s
    · simp only [visit]
      by_cases h : obj ∈ s.visited
      · rw [if_pos h]
        exact H.qrefl s
      · rw [if_neg h]
        refine H.qtrans _ _ _ (H.qmark s obj (hc obj rfl) h) ?_
        refine foldR_rel _ Q H.qrefl H.qtrans P.decls ?_ _
        intro d hd s2
        exact processDecl_rel P A Q H _ (fun c2 s3 hc2 => ih c2 s3 hc2) obj d hd s2

/-! ### Goodness of the calls issued while expanding one declaration -/

theorem structField_calls_good (P : Program) (A : Obj → Prop) (hA : GoodProg A P)
    (specs : List Spec) (hd : Decl.genDecl specs ∈ P.decls) (nm : Ident)
    (fields : List (List Ident × Expr))
    (hsp : Spec.typeSpec nm (Expr.structT fields) ∈ specs)
    (fld : List Ident × Expr) (hfld : fld ∈ fields) :
    ∀ c ∈ (visitTypeExpr P.info fld.2).calls, GoodCall A c := by
  intro c hc
  rcases visitTypeExpr_calls P.info fld.2 c hc with ⟨i, hi, he⟩
  refine goodcall_of_uses P A hA _ hd i ?_ c he
  refine mem_specIdents_decl _ specs i hsp ?_
  simp only [specIdents]
  refine List.mem_cons_of_mem nm ?_
  simp only [exprIdents]
  exact mem_fieldsIdents i fld fields hfld hi

theorem valueTy_calls_good (P : Program) (A : Obj → Prop) (hA : GoodProg A P)
    (specs : List Spec) (hd : Decl.genDecl specs ∈ P.decls)
    (names : List Ident) (t : Expr) (vals : List Expr)
    (hsp : Spec.valueSpec names (some t) vals ∈ specs) :
    ∀ c ∈ (visitTypeExpr P.info t).calls, GoodCall A c := by
  intro c hc
  rcases visitTypeExpr_calls P.info t c hc with ⟨i, hi, he⟩
  refine goodcall_of_uses P A hA _ hd i ?_ c he
  refine mem_specIdents_decl _ specs i hsp ?_
  simp only [specIdents]
  have h2 : i ∈ optIdents (some t) := by simpa [optIdents] using hi
  simp [List.mem_append, h2]

theorem valueVal_calls_good (P : Program) (A : Obj → Prop) (hA : GoodProg A P)
    (specs : List Spec) (hd : Decl.genDecl specs ∈ P.decls)
    (names : List Ident) (ty : Option Expr) (vals : List Expr)
    (hsp : Spec.valueSpec names ty vals ∈ specs) (v : Expr) (hv : v ∈ vals) :
    ∀ c ∈ (visitExpr P.info v).calls, GoodCall A c := by
  intro c hc
  rcases visitExpr_calls P.info v c hc with ⟨i, hi, he⟩
  refine goodcall_of_uses P A hA _ hd i ?_ c he
  refine mem_specIdents_decl _ specs i hsp ?_
  simp only [specIdents]
  have h2 : i ∈ exprIdentsList vals := mem_exprIdentsList i v vals hv hi
  simp [List.mem_append, h2]

theorem body_calls_good (P : Program) (A : Obj → Prop) (hA : GoodProg A P)
    (recv : List (List Ident × Expr)) (nm : Ident) (ftype : Expr) (ids : List Ident)
    (hd : Decl.funcDecl recv nm ftype (some ids) ∈ P.decls) :
    ∀ c ∈ ids.map (fun i => Info.resolve P.info i), GoodCall A c := by
  intro c hc
  rcases List.mem_map.mp hc with ⟨i, hi, he⟩
  rw [← he]
  refine goodcall_of_resolve P A hA _ hd i ?_
  simp [declIdents, List.mem_append, hi]

theorem goodProg_allObjs (P : Program) : GoodProg (fun o => o ∈ allObjs P) P :=
  fun _ _ i _ o ho => resolve_mem_allObjs P i o ho

/-! ### Fuel sufficiency: the visited set grows inside a finite universe -/

def Grow (s s2 : St) : Prop := s.visited ⊆ s2.visited ∧ s.used ⊆ s2.used

theorem grow_ctx (P : Program) : RelCtx P (fun _ => True) Grow where
  good := fun _ _ _ _ _ _ => trivial
  qrefl := fun _ => ⟨fun _ h => h, fun _ h => h⟩
  qtrans := fun _ _ _ h1 h2 =>
    ⟨fun x hx => h2.1 (h1.1 hx), fun x hx => h2.2 (h1.2 hx)⟩
  qmark := fun s o _ _ =>
    ⟨fun x hx => List.mem_cons_of_mem o hx, insertUsed_sub s.used o.name⟩
  qins := fun _ _ _ _ _ => ⟨fun _ h => h, fun _ h => h⟩

theorem visit_grow (P : Program) (fuel : Nat) (c : Option Obj) (s : St) :
    Grow s (visit P fuel c s).st :=
  visit_rel P (fun _ => True) Grow (grow_ctx P) fuel c s (fun _ _ => trivial)

def remObjs (P : Program) (s : St) : Finset Obj :=
  (allObjs P).toFinset \ s.visited.toFinset

theorem remObjs_mono (P : Program) (s s2 : St) (h : s.visited ⊆ s2.visited) :
    remObjs P s2 ⊆ remObjs P s := by
  intro x hx
  rcases Finset.mem_sdiff.mp hx with ⟨h1, h2⟩
  refine Finset.mem_sdiff.mpr ⟨h1, fun h3 => h2 ?_⟩
  exact List.mem_toFinset.mpr (h (List.mem_toFinset.mp h3))

theorem visit_measure (P : Program) (fuel : Nat) (c : Option Obj) (s : St) :
    (remObjs P (visit P fuel c s).st).card ≤ (remObjs P s).card :=
  Finset.card_le_card (remObjs_mono P s _ (visit_grow P fuel c s).1)

theorem remObjs_mark (P : Program) (s : St) (o : Obj) (ho : o ∈ allObjs P)
    (hv : o ∉ s.visited) :
    (remObjs P (s.mark o)).card < (remObjs P s).card := by
  have h1 : remObjs P (s.mark o) = (remObjs P s).erase o := by
    unfold remObjs St.mark
    ext x
    simp only [Finset.mem_sdiff, Finset.mem_erase, List.toFinset_cons,
      Finset.mem_insert, List.mem_toFinset]
    constructor
    · intro hx
      push_neg at hx
      exact ⟨hx.2.1, hx.1, hx.2.2⟩
    · intro hx
      refine ⟨hx.2.1, ?_⟩
      push_neg
      exact ⟨hx.1, hx.2.2⟩
  rw [h1]
  refine Finset.card_erase_lt_of_mem ?_
  exact Finset.mem_sdiff.mpr ⟨List.mem_toFinset.mpr ho,
    fun h2 => hv (List.mem_toFinset.mp h2)⟩

theorem foldR_nf {α : Type} (g : α → St → R) (N : St → Prop) :
    ∀ (l : List α), (∀ a ∈ l, ∀ s, N s → (g a s).out ≠ .nofuel ∧ N (g a s).st) →
    ∀ s, N s → (foldR g l s).out ≠ .nofuel ∧ N (foldR g l s).st := by
  intro l
  induction l with
  | nil =>
    intro _ s hN
    exact ⟨fun h => Outcome.noConfusion h, hN⟩
  | cons a rest ih =>
    intro hg s hN
    rcases hg a (List.mem_cons_self a rest) s hN with ⟨h1, h2⟩
    by_cases h3 : (g a s).out = .ok
    · rw [foldR_cons_ok g a rest s h3]
      exact ih (fun b hb => hg b (List.mem_cons_of_mem a hb)) (g a s).st h2
    · rw [foldR_cons_abort g a rest s h3]
      exact ⟨h1, h2⟩

theorem runWalk_nf (A : Obj → Prop) (f : Option Obj → St → R) (N : St → Prop)
    (hf : ∀ c s, GoodCall A c → N s → (f c s).out ≠ .nofuel ∧ N (f c s).st)
    (w : WalkOut) (hw : ∀ c ∈ w.calls, GoodCall A c) (s : St) (hN : N s) :
    (runWalk f w s).out ≠ .nofuel ∧ N (runWalk f w s).st := by
  have h := foldR_nf f N w.calls (fun c hc s2 hN2 => hf c s2 (hw c hc) hN2) s hN
  refine ⟨runWalk_not_nofuel f w s h.1, ?_⟩
  rw [runWalk_st]
  exact h.2

theorem andThen_nf (r : R) (k : St → R) (N : St → Prop)
    (h1 : r.out ≠ .nofuel ∧ N r.st)
    (h2 : ∀ s2, N s2 → (k s2).out ≠ .nofuel ∧ N (k s2).st) :
    (andThen r k).out ≠ .nofuel ∧ N (andThen r k).st := by
  unfold andThen
  rcases h3 : r.out with _ | _ | _
  · exact h2 r.st h1.2
  · exact h1
  · exact h1

theorem valueSpecStep_nf (P : Program) (A : Obj → Prop) (N : St → Prop)
    (hA : GoodProg A P) (f : Option Obj → St → R)
    (hf : ∀ c s, GoodCall A c → N s → (f c s).out ≠ .nofuel ∧ N (f c s).st)
    (hnins : ∀ s k d, N s → N (St.insertDecl s k d))
    (specs : List Spec) (obj : Obj) (names : List Ident) (ty : Option Expr)
    (vals : List Expr) (hd : Decl.genDecl specs ∈ P.decls)
    (hsp : Spec.valueSpec names ty vals ∈ specs)
    (nm : Ident) (s : St) (hN : N s) :
    (valueSpecStep P.info f (Decl.genDecl specs) obj ty vals nm s).out ≠ .nofuel ∧
      N (valueSpecStep P.info f (Decl.genDecl specs) obj ty vals nm s).st := by
  unfold valueSpecStep
  by_cases h : nm.name = obj.name
  case neg =>
    rw [if_neg h]
    exact ⟨fun h2 => Outcome.noConfusion h2, hN⟩
  case pos =>
    rw [if_pos h]
    refine andThen_nf _ _ N ?_ ?_
    · rcases ty with _ | t
      · exact ⟨fun h2 => Outcome.noConfusion h2, hnins s _ _ hN⟩
      · exact runWalk_nf A f N hf _
          (valueTy_calls_good P A hA specs hd names t vals hsp) _ (hnins s _ _ hN)
    · intro s2 hN2
      refine foldR_nf _ N vals ?_ s2 hN2
      intro v hv s3 hN3
      exact runWalk_nf A f N hf _
        (valueVal_calls_good P A hA specs hd names ty vals hsp v hv) s3 hN3

theorem processSpec_nf (P : Program) (A : Obj → Prop) (N : St → Prop)
    (hA : GoodProg A P) (f : Option Obj → St → R)
    (hf : ∀ c s, GoodCall A c → N s → (f c s).out ≠ .nofuel ∧ N (f c s).st)
    (hnins : ∀ s k d, N s → N (St.insertDecl s k d))
    (specs : List Spec) (obj : Obj) (hd : Decl.genDecl specs ∈ P.decls)
    (sp : Spec) (hsp : sp ∈ specs) (s : St) (hN : N s) :
    (processSpec P.info f (Decl.genDecl specs) obj sp s).out ≠ .nofuel ∧
      N (processSpec P.info f (Decl.genDecl specs) obj sp s).st := by
  rcases sp with ⟨onm, path⟩ | ⟨nm, ty⟩ | ⟨names, ty, vals⟩
  · exact ⟨fun h2 => Outcome.noConfusion h2, hN⟩
  · simp only [processSpec]
    by_cases h : nm.name = obj.name
    case neg =>
      rw [if_neg h]
      exact ⟨fun h2 => Outcome.noConfusion h2, hN⟩
    case pos =>
      rw [if_pos h]
      split
      · rename_i fields
        refine foldR_nf _ N fields ?_ _ (hnins s _ _ hN)
        intro fld hfld s3 hN3
        exact runWalk_nf A f N hf _
          (structField_calls_good P A hA specs hd nm fields (by assumption) fld hfld)
          s3 hN3
      · exact ⟨fun h2 => Outcome.noConfusion h2, hnins s _ _ hN⟩
  · simp only [processSpec]
    refine foldR_nf _ N names ?_ s hN
    intro nm hnm s2 hN2
    exact valueSpecStep_nf P A N hA f hf hnins specs obj names ty vals hd hsp nm s2 hN2

theorem processDecl_nf (P : Program) (A : Obj → Prop) (N : St → Prop)
    (hA : GoodProg A P) (f : Option Obj → St → R)
    (hf : ∀ c s, GoodCall A c → N s → (f c s).out ≠ .nofuel ∧ N (f c s).st)
    (hnins : ∀ s k d, N s → N (St.insertDecl s k d))
    (obj : Obj) (d : Decl) (hd : d ∈ P.decls) (s : St) (hN : N s) :
    (processDecl P.info f obj d s).out ≠ .nofuel ∧
      N (processDecl P.info f obj d s).st := by
  rcases d with ⟨recv, nm, ftype, body⟩ | specs
  · simp only [processDecl]
    by_cases h : nm.name = obj.name
    case neg =>
      rw [if_neg h]
      exact ⟨fun h2 => Outcome.noConfusion h2, hN⟩
    case pos =>
      rw [if_pos h]
      rcases body with _ | ids
      · exact ⟨fun h2 => Outcome.noConfusion h2, hnins s _ _ hN⟩
      · refine foldR_nf _ N _ ?_ _ (hnins s _ _ hN)
        intro c hc s3 hN3
        exact hf c s3 (body_calls_good P A hA recv nm ftype ids hd c hc) hN3
  · simp only [processDecl]
    refine foldR_nf _ N specs ?_ s hN
    intro sp hsp s2 hN2
    exact processSpec_nf P A N hA f hf hnins specs obj hd sp hsp s2 hN2

theorem visit_nf (P : Program) :
    ∀ (fuel : Nat) (c : Option Obj) (s : St),
      GoodCall (fun o => o ∈ allObjs P) c →
      (remObjs P s).card < fuel →
      (visit P fuel c s).out ≠ .nofuel := by
  intro fuel
  induction fuel with
  | zero =>
    intro c s _ hN
    exact absurd hN (Nat.not_lt_zero _)
  | succ fuel2 ih =>
    intro c s hc hN
    rcases c with _ | obj
    · simp only [visit]
      intro h2
      cases h2
    · simp only [visit]
      by_cases h : obj ∈ s.visited
      · rw [if_pos h]
        intro h2
        cases h2
      · rw [if_neg h]
        have hdec := remObjs_mark P s obj (hc obj rfl) h
        have hmark : (remObjs P (s.mark obj)).card < fuel2 := by omega
        have hf : ∀ c2 s2, GoodCall (fun o => o ∈ allObjs P) c2 →
            (remObjs P s2).card < fuel2 →
            (visit P fuel2 c2 s2).out ≠ .nofuel ∧
              (remObjs P (visit P fuel2 c2 s2).st).card < fuel2 :=
          fun c2 s2 hc2 hN2 =>
            ⟨ih c2 s2 hc2 hN2,
             Nat.lt_of_le_of_lt (visit_measure P fuel2 c2 s2) hN2⟩
        have hfold := foldR_nf (processDecl P.info (fun c2 s2 => visit P fuel2 c2 s2) obj)
          (fun s2 => (remObjs P s2).card < fuel2) P.decls
          (fun d hd s2 hN2 =>
            processDecl_nf P (fun o => o ∈ allObjs P)
              (fun s3 => (remObjs P s3).card < fuel2)
              (goodProg_allObjs P) _ hf (fun _ _ _ hx => hx) obj d hd s2 hN2)
          (s.mark obj) hmark
        exact hfold.1

/-! ### Instantiations of the master lemma -/

/-- Every visited object's name has been recorded in `used`. -/
def NU (s : St) : Prop := ∀ o ∈ s.visited, o.name ∈ s.used

theorem nu_ctx (P : Program) : RelCtx P (fun _ => True) (fun s s2 => NU s → NU s2) where
  good := fun _ _ _ _ _ _ => trivial
  qrefl := fun _ h => h
  qtrans := fun _ _ _ h1 h2 h => h2 (h1 h)
  qmark := fun s o _ _ hnu o2 ho2 => by
    rcases List.mem_cons.mp ho2 with h | h
    · subst h
      exact mem_insertUsed_self s.used o2.name
    · exact insertUsed_sub s.used o.name (hnu o2 h)
  qins := fun _ _ _ _ _ h => h

theorem visit_nu (P : Program) (fuel : Nat) (c : Option Obj) (s : St) (h : NU s) :
    NU (visit P fuel c s).st :=
  visit_rel P (fun _ => True) (fun s1 s2 => NU s1 → NU s2) (nu_ctx P) fuel c s
    (fun _ _ => trivial) h

/-- Every used name is the name of an object of the class `A`. -/
def UsedFrom (A : Obj → Prop) (s : St) : Prop :=
  ∀ n ∈ s.used, ∃ o, A o ∧ o.name = n

theorem usedfrom_ctx (P : Program) (A : Obj → Prop) (hA : GoodProg A P) :
    RelCtx P A (fun s s2 => UsedFrom A s → UsedFrom A s2) where
  good := hA
  qrefl := fun _ h => h
  qtrans := fun _ _ _ h1 h2 h => h2 (h1 h)
  qmark := fun s o hAo _ hin n hn => by
    rcases mem_insertUsed s.used o.name n hn with h | h
    · exact hin n h
    · exact ⟨o, hAo, h.symm⟩
  qins := fun _ _ _ _ _ h => h

/-- Every recorded declaration is a scanned declaration matching its key. -/
def DMgood (P : Program) (s : St) : Prop :=
  ∀ p ∈ s.declMap, p.2 ∈ P.decls ∧ declMatches p.2 p.1 = true

theorem dm_ctx (P : Program) : RelCtx P (fun _ => True) (fun s s2 => DMgood P s → DMgood P s2) where
  good := fun _ _ _ _ _ _ => trivial
  qrefl := fun _ h => h
  qtrans := fun _ _ _ h1 h2 h => h2 (h1 h)
  qmark := fun _ _ _ _ h => h
  qins := fun s k d hd hm hdm p hp => by
    rcases mem_mapInsert s.declMap k d p hp with h | h
    · exact hdm p h
    · subst h
      exact ⟨hd, hm⟩

/-- The recorded keys are free of duplicates (map semantics). -/
def KeysN (s : St) : Prop := (s.declMap.map Prod.fst).Nodup

theorem kn_ctx (P : Program) : RelCtx P (fun _ => True) (fun s s2 => KeysN s → KeysN s2) where
  good := fun _ _ _ _ _ _ => trivial
  qrefl := fun _ h => h
  qtrans := fun _ _ _ h1 h2 h => h2 (h1 h)
  qmark := fun _ _ _ _ h => h
  qins := fun s k d _ _ h => nodup_keys_mapInsert s.declMap k d h

theorem mem_mapInsert_self (m : List (String × Decl)) (k : String) (d : Decl) :
    (k, d) ∈ mapInsert m k d := by
  induction m with
  | nil => simp [mapInsert]
  | cons q rest ih =>
    by_cases h2 : q.1 = k
    · simp [mapInsert, h2]
    · rw [show mapInsert (q :: rest) k d = q :: mapInsert rest k d from by
            simp [mapInsert, h2]]
      exact List.mem_cons_of_mem q ih

theorem persist_ctx (P : Program) (nm : String) (d : Decl)
    (huniq : ∀ d2 ∈ P.decls, declMatches d2 nm = true → d2 = d) :
    RelCtx P (fun _ => True)
      (fun s s2 => (nm, d) ∈ s.declMap → (nm, d) ∈ s2.declMap) where
  good := fun _ _ _ _ _ _ => trivial
  qrefl := fun _ h => h
  qtrans := fun _ _ _ h1 h2 h => h2 (h1 h)
  qmark := fun _ _ _ _ h => h
  qins := fun s k d2 hd2 hm hmem =>
    mapInsert_mem_preserve s.declMap k nm d2 d hmem
      (fun hk => huniq d2 hd2 (by rw [hk] at hm; exact hm))

theorem visit_persist (P : Program) (nm : String) (d : Decl)
    (huniq : ∀ d2 ∈ P.decls, declMatches d2 nm = true → d2 = d)
    (fuel : Nat) (c : Option Obj) (s : St) (h : (nm, d) ∈ s.declMap) :
    (nm, d) ∈ (visit P fuel c s).st.declMap :=
  visit_rel P (fun _ => True) _ (persist_ctx P nm d huniq) fuel c s
    (fun _ _ => trivial) h

/-! ### What a completed visit of an object guarantees -/

theorem visit_marks (P : Program) (fuel : Nat) (o : Obj) (s : St)
    (hok : (visit P fuel (some o) s).out = .ok) (hnu : NU s) :
    o.name ∈ (visit P fuel (some o) s).st.used := by
  rcases fuel with _ | fuel2
  · simp only [visit] at hok ⊢
    by_cases h : o ∈ s.visited
    · rw [if_pos h] at hok ⊢
      exact hnu o h
    · rw [if_neg h] at hok
      cases hok
  · simp only [visit] at hok ⊢
    by_cases h : o ∈ s.visited
    · rw [if_pos h] at hok ⊢
      exact hnu o h
    · rw [if_neg h] at hok ⊢
      have h1 : o.name ∈ (s.mark o).used := mem_insertUsed_self s.used o.name
      have h2 : Grow (s.mark o)
          ((foldR (processDecl P.info (fun c2 s2 => visit P fuel2 c2 s2) o)
            P.decls (s.mark o)).st) :=
        foldR_rel _ Grow (grow_ctx P).qrefl (grow_ctx P).qtrans P.decls
          (fun d2 hd s2 =>
            processDecl_rel P (fun _ => True) Grow (grow_ctx P) _
              (fun c2 s3 _ => visit_grow P fuel2 c2 s3) o d2 hd s2)
          (s.mark o)
      exact h2.2 h1

theorem visit_visits (P : Program) (fuel : Nat) (o : Obj) (s : St)
    (hok : (visit P fuel (some o) s).out = .ok) :
    o ∈ (visit P fuel (some o) s).st.visited := by
  rcases fuel with _ | fuel2
  · simp only [visit] at hok ⊢
    by_cases h : o ∈ s.visited
    · rw [if_pos h] at hok ⊢
      exact h
    · rw [if_neg h] at hok
      cases hok
  · simp only [visit] at hok ⊢
    by_cases h : o ∈ s.visited
    · rw [if_pos h] at hok ⊢
      exact h
    · rw [if_neg h] at hok ⊢
      have h1 : o ∈ (s.mark o).visited := List.mem_cons_self o s.visited
      have h2 : Grow (s.mark o)
          ((foldR (processDecl P.info (fun c2 s2 => visit P fuel2 c2 s2) o)
            P.decls (s.mark o)).st) :=
        foldR_rel _ Grow (grow_ctx P).qrefl (grow_ctx P).qtrans P.decls
          (fun d2 hd s2 =>
            processDecl_rel P (fun _ => True) Grow (grow_ctx P) _
              (fun c2 s3 _ => visit_grow P fuel2 c2 s3) o d2 hd s2)
          (s.mark o)
      exact h2.1 h1

/-! ### The used set of a single-file unit -/

theorem decls_single (P : Program) (hf : P.files = [P.entry]) : P.decls = P.entry := by
  unfold Program.decls
  rw [hf]
  simp

theorem goodProg_entry (P : Program) (hf : P.files = [P.entry]) :
    GoodProg (fun o => ∃ i ∈ entryIdents P, Info.resolve P.info i = some o) P := by
  intro d hd i hi o ho
  refine ⟨i, ?_, ho⟩
  rw [decls_single P hf] at hd
  exact List.mem_flatten.mpr ⟨declIdents d, List.mem_map_of_mem _ hd, hi⟩

theorem seed_calls_res (P : Program) (c : Option Obj) (hc : c ∈ seedCalls P) :
    ∃ i ∈ entryIdents P, c = Info.resolve P.info i := by
  rcases List.mem_map.mp hc with ⟨i, hi, he⟩
  exact ⟨i, hi, he.symm⟩

theorem collect_used_sub (P : Program) (hf : P.files = [P.entry]) :
    ∀ n ∈ (CollectUsedDeclarations P).st.used,
      ∃ i ∈ entryIdents P, ∃ o, Info.resolve P.info i = some o ∧ o.name = n := by
  have hA := goodProg_entry P hf
  have h2 : UsedFrom (fun o => ∃ i ∈ entryIdents P, Info.resolve P.info i = some o)
      (CollectUsedDeclarations P).st := by
    unfold CollectUsedDeclarations
    refine foldR_rel _ _ (usedfrom_ctx P _ hA).qrefl (usedfrom_ctx P _ hA).qtrans
      (seedCalls P) ?_ _ ?_
    · intro c hc s
      refine visit_rel P _ _ (usedfrom_ctx P _ hA) _ c s ?_
      intro o ho
      rcases seed_calls_res P c hc with ⟨i, hi, he⟩
      exact ⟨i, hi, by rw [← he, ho]⟩
    · intro n hn
      cases hn
  intro n hn
  rcases h2 n hn with ⟨o, ⟨i, hi, hres⟩, he⟩
  exact ⟨i, hi, o, hres, he⟩

theorem collect_used_sup (P : Program) (i : Ident) (o : Obj)
    (hi : i ∈ entryIdents P) (hres : Info.resolve P.info i = some o)
    (hok : (CollectUsedDeclarations P).out = .ok) :
    o.name ∈ (CollectUsedDeclarations P).st.used := by
  unfold CollectUsedDeclarations at hok ⊢
  have hmem : some o ∈ seedCalls P := by
    have h1 : Info.resolve P.info i ∈ seedCalls P :=
      List.mem_map_of_mem _ hi
    rw [hres] at h1
    exact h1
  refine foldR_exec _ NU (fun s2 => o.name ∈ s2.used) (seedCalls P)
    (fun c _ s2 h2 => visit_nu P _ c s2 h2)
    (fun c _ s2 h2 => (visit_grow P _ c s2).2 h2)
    (some o) hmem
    (fun s2 hnu hok2 => visit_marks P _ o s2 hok2 hnu)
    _ ?_ hok
  intro o2 ho2
  cases ho2

theorem collect_visits (P : Program) (i : Ident) (o : Obj)
    (hi : i ∈ entryIdents P) (hres : Info.resolve P.info i = some o)
    (hok : (CollectUsedDeclarations P).out = .ok) :
    o ∈ (CollectUsedDeclarations P).st.visited := by
  unfold CollectUsedDeclarations at hok ⊢
  have hmem : some o ∈ seedCalls P := by
    have h1 : Info.resolve P.info i ∈ seedCalls P :=
      List.mem_map_of_mem _ hi
    rw [hres] at h1
    exact h1
  refine foldR_exec _ (fun _ => True) (fun s2 => o ∈ s2.visited) (seedCalls P)
    (fun _ _ _ _ => trivial)
    (fun c _ s2 h2 => (visit_grow P _ c s2).1 h2)
    (some o) hmem
    (fun s2 _ hok2 => visit_visits P _ o s2 hok2)
    _ trivial hok

/-! ### When an object becomes visited inside a sub-run, its (unique)
matching declaration has been recorded -/

theorem runWalk_trig (o : Obj) (f : Option Obj → St → R)
    (hT : ∀ c s, o ∈ s.visited → o ∈ (f c s).st.visited)
    (w : WalkOut) (s : St) (h : o ∈ s.visited) :
    o ∈ (runWalk f w s).st.visited := by
  rw [runWalk_st]
  exact foldR_rel f (fun s1 s2 => o ∈ s1.visited → o ∈ s2.visited)
    (fun _ h2 => h2) (fun _ _ _ h1 h2 h3 => h2 (h1 h3)) w.calls
    (fun c _ s2 => hT c s2) s h

theorem runWalk_pair (o : Obj) (d : Decl) (f : Option Obj → St → R)
    (hP : ∀ c s, (o.name, d) ∈ s.declMap → (o.name, d) ∈ (f c s).st.declMap)
    (w : WalkOut) (s : St) (h : (o.name, d) ∈ s.declMap) :
    (o.name, d) ∈ (runWalk f w s).st.declMap := by
  rw [runWalk_st]
  exact foldR_rel f (fun s1 s2 => (o.name, d) ∈ s1.declMap → (o.name, d) ∈ s2.declMap)
    (fun _ h2 => h2) (fun _ _ _ h1 h2 h3 => h2 (h1 h3)) w.calls
    (fun c _ s2 => hP c s2) s h

theorem runWalk_retain (o : Obj) (d : Decl) (f : Option Obj → St → R)
    (hJ : ∀ c s, (f c s).out = .ok → o ∉ s.visited → o ∈ (f c s).st.visited →
      (o.name, d) ∈ (f c s).st.declMap)
    (hT : ∀ c s, o ∈ s.visited → o ∈ (f c s).st.visited)
    (hP : ∀ c s, (o.name, d) ∈ s.declMap → (o.name, d) ∈ (f c s).st.declMap)
    (w : WalkOut) (s : St) (h0 : o ∉ s.visited)
    (hok : (runWalk f w s).out = .ok)
    (htr : o ∈ (runWalk f w s).st.visited) :
    (o.name, d) ∈ (runWalk f w s).st.declMap := by
  rcases runWalk_ok_decomp f w s hok with ⟨hfold, _⟩
  rw [runWalk_st] at htr ⊢
  exact foldR_jump f (fun s2 => o ∈ s2.visited) (fun s2 => (o.name, d) ∈ s2.declMap)
    w.calls (fun c _ s2 h1 h2 h3 => hJ c s2 h2 h1 h3)
    (fun c _ s2 => hT c s2) (fun c _ s2 => hP c s2) s h0 hfold htr

theorem valueSpecStep_retain (P : Program) (o : Obj) (d : Decl)
    (huniq : ∀ d2 ∈ P.decls, declMatches d2 o.name = true → d2 = d)
    (f : Option Obj → St → R)
    (hJ : ∀ c s, (f c s).out = .ok → o ∉ s.visited → o ∈ (f c s).st.visited →
      (o.name, d) ∈ (f c s).st.declMap)
    (hT : ∀ c s, o ∈ s.visited → o ∈ (f c s).st.visited)
    (hP : ∀ c s, (o.name, d) ∈ s.declMap → (o.name, d) ∈ (f c s).st.declMap)
    (specs : List Spec) (obj2 : Obj) (names : List Ident) (ty : Option Expr)
    (vals : List Expr) (hd2 : Decl.genDecl specs ∈ P.decls)
    (hsp : Spec.valueSpec names ty vals ∈ specs)
    (nm2 : Ident) (s : St) (h0 : o ∉ s.visited)
    (hok : (valueSpecStep P.info f (Decl.genDecl specs) obj2 ty vals nm2 s).out = .ok)
    (htr : o ∈ (valueSpecStep P.info f (Decl.genDecl specs) obj2 ty vals nm2 s).st.visited) :
    (o.name, d) ∈ (valueSpecStep P.info f (Decl.genDecl specs) obj2 ty vals nm2 s).st.declMap := by
  have hvalsTrig : ∀ s2, o ∈ s2.visited →
      o ∈ ((foldR (fun v s3 => runWalk f (visitExpr P.info v) s3) vals s2)).st.visited :=
    fun s2 h2 =>
      foldR_rel _ (fun s3 s4 => o ∈ s3.visited → o ∈ s4.visited)
        (fun _ h3 => h3) (fun _ _ _ h3 h4 h5 => h4 (h3 h5)) vals
        (fun v _ s3 => runWalk_trig o f hT _ s3) s2 h2
  have hvalsPair : ∀ s2, (o.name, d) ∈ s2.declMap →
      (o.name, d) ∈ ((foldR (fun v s3 => runWalk f (visitExpr P.info v) s3) vals s2)).st.declMap :=
    fun s2 h2 =>
      foldR_rel _ (fun s3 s4 => (o.name, d) ∈ s3.declMap → (o.name, d) ∈ s4.declMap)
        (fun _ h3 => h3) (fun _ _ _ h3 h4 h5 => h4 (h3 h5)) vals
        (fun v _ s3 => runWalk_pair o d f hP _ s3) s2 h2
  have hvalsJump : ∀ s2, o ∉ s2.visited →
      ((foldR (fun v s3 => runWalk f (visitExpr P.info v) s3) vals s2)).out = .ok →
      o ∈ ((foldR (fun v s3 => runWalk f (visitExpr P.info v) s3) vals s2)).st.visited →
      (o.name, d) ∈ ((foldR (fun v s3 => runWalk f (visitExpr P.info v) s3) vals s2)).st.declMap :=
    fun s2 h2 hok2 htr2 =>
      foldR_jump _ (fun s3 => o ∈ s3.visited) (fun s3 => (o.name, d) ∈ s3.declMap)
        vals (fun v _ s3 h3 hok3 htr3 => runWalk_retain o d f hJ hT hP _ s3 h3 hok3 htr3)
        (fun v _ s3 => runWalk_trig o f hT _ s3)
        (fun v _ s3 => runWalk_pair o d f hP _ s3) s2 h2 hok2 htr2
  unfold valueSpecStep at hok htr ⊢
  by_cases h : nm2.name = obj2.name
  case neg =>
    rw [if_neg h] at hok htr ⊢
    exact absurd htr h0
  case pos =>
    rw [if_pos h] at hok htr ⊢
    rcases ty with _ | t
    · rcases andThen_ok _ _ hok with ⟨hr1, heq⟩
      rw [heq] at hok htr ⊢
      exact hvalsJump _ h0 hok htr
    · rcases andThen_ok _ _ hok with ⟨hr1, heq⟩
      rw [heq] at hok htr ⊢
      by_cases htr1 : o ∈ (runWalk f (visitTypeExpr P.info t)
          (St.insertDecl s obj2.name (Decl.genDecl specs))).st.visited
      · refine hvalsPair _ ?_
        exact runWalk_retain o d f hJ hT hP _ _ h0 hr1 htr1
      · exact hvalsJump _ htr1 hok htr

theorem trig_ctx (P : Program) (o : Obj) :
    RelCtx P (fun _ => True) (fun s s2 => o ∈ s.visited → o ∈ s2.visited) where
  good := fun _ _ _ _ _ _ => trivial
  qrefl := fun _ h => h
  qtrans := fun _ _ _ h1 h2 h => h2 (h1 h)
  qmark := fun _ o2 _ _ h => List.mem_cons_of_mem o2 h
  qins := fun _ _ _ _ _ h => h

theorem declMatches_funcDecl_name (recv : List (List Ident × Expr)) (nm : Ident)
    (ftype : Expr) (body : Option (List Ident)) (k : String)
    (h : declMatches (Decl.funcDecl recv nm ftype body) k = true) : nm.name = k := by
  simpa [declMatches] using h

theorem declMatches_genDecl_exists (specs : List Spec) (k : String)
    (h : declMatches (Decl.genDecl specs) k = true) :
    ∃ sp ∈ specs,
      (∃ n ty, sp = Spec.typeSpec n ty ∧ n.name = k) ∨
      (∃ names ty vals, sp = Spec.valueSpec names ty vals ∧ ∃ n ∈ names, n.name = k) := by
  simp only [declMatches, List.any_eq_true] at h
  rcases h with ⟨sp, hsp, hm⟩
  rcases sp with ⟨onm, path⟩ | ⟨n, ty⟩ | ⟨names, ty, vals⟩
  · simp at hm
  · exact ⟨Spec.typeSpec n ty, hsp, Or.inl ⟨n, ty, rfl, by simpa using hm⟩⟩
  · refine ⟨Spec.valueSpec names ty vals, hsp, Or.inr ⟨names, ty, vals, rfl, ?_⟩⟩
    simp only [List.any_eq_true] at hm
    rcases hm with ⟨n, hn, hm2⟩
    exact ⟨n, hn, by simpa using hm2⟩

theorem valueSpecStep_post (P : Program) (o : Obj) (d : Decl)
    (f : Option Obj → St → R)
    (hP : ∀ c s, (o.name, d) ∈ s.declMap → (o.name, d) ∈ (f c s).st.declMap)
    (specs : List Spec) (hde : d = Decl.genDecl specs)
    (ty : Option Expr) (vals : List Expr)
    (nm2 : Ident) (hmatch : nm2.name = o.name) (s : St) :
    (o.name, d) ∈ (valueSpecStep P.info f d o ty vals nm2 s).st.declMap := by
  have hvalsPair : ∀ s2, (o.name, d) ∈ s2.declMap →
      (o.name, d) ∈ ((foldR (fun v s3 => runWalk f (visitExpr P.info v) s3) vals s2)).st.declMap :=
    fun s2 h2 =>
      foldR_rel _ (fun s3 s4 => (o.name, d) ∈ s3.declMap → (o.name, d) ∈ s4.declMap)
        (fun _ h3 => h3) (fun _ _ _ h3 h4 h5 => h4 (h3 h5)) vals
        (fun v _ s3 => runWalk_pair o d f hP _ s3) s2 h2
  unfold valueSpecStep
  rw [if_pos hmatch]
  have hins : (o.name, d) ∈ (St.insertDecl s o.name d).declMap :=
    mem_mapInsert_self s.declMap o.name d
  rcases ty with _ | t
  · unfold andThen
    rcases h3 : (R.out ⟨St.insertDecl s o.name d, Outcome.ok⟩) with _ | _ | _
    · exact hvalsPair _ hins
    · exact hins
    · exact hins
  · have h4 : (o.name, d) ∈ (runWalk f (visitTypeExpr P.info t)
        (St.insertDecl s o.name d)).st.declMap :=
      runWalk_pair o d f hP _ _ hins
    unfold andThen
    rcases h3 : (runWalk f (visitTypeExpr P.info t) (St.insertDecl s o.name d)).out
      with _ | _ | _
    · exact hvalsPair _ h4
    · exact h4
    · exact h4

theorem processSpec_retain (P : Program) (o : Obj) (d : Decl)
    (huniq : ∀ d2 ∈ P.decls, declMatches d2 o.name = true → d2 = d)
    (f : Option Obj → St → R)
    (hJ : ∀ c s, (f c s).out = .ok → o ∉ s.visited → o ∈ (f c s).st.visited →
      (o.name, d) ∈ (f c s).st.declMap)
    (hT : ∀ c s, o ∈ s.visited → o ∈ (f c s).st.visited)
    (hP : ∀ c s, (o.name, d) ∈ s.declMap → (o.name, d) ∈ (f c s).st.declMap)
    (specs : List Spec) (obj2 : Obj) (hd2 : Decl.genDecl specs ∈ P.decls)
    (sp : Spec) (hsp : sp ∈ specs) (s : St) (h0 : o ∉ s.visited)
    (hok : (processSpec P.info f (Decl.genDecl specs) obj2 sp s).out = .ok)
    (htr : o ∈ (processSpec P.info f (Decl.genDecl specs) obj2 sp s).st.visited) :
    (o.name, d) ∈ (processSpec P.info f (Decl.genDecl specs) obj2 sp s).st.declMap := by
  rcases sp with ⟨onm, path⟩ | ⟨nm2, ty2⟩ | ⟨names, ty, vals⟩
  · exact absurd htr h0
  · simp only [processSpec] at hok htr ⊢
    by_cases h : nm2.name = obj2.name
    case neg =>
      rw [if_neg h] at htr ⊢
      exact absurd htr h0
    case pos =>
      rw [if_pos h] at hok htr ⊢
      split at htr
      · rename_i fields
        refine foldR_jump _ (fun s3 => o ∈ s3.visited)
          (fun s3 => (o.name, d) ∈ s3.declMap) fields
          (fun fld _ s3 h3 hok3 htr3 => runWalk_retain o d f hJ hT hP _ s3 h3 hok3 htr3)
          (fun fld _ s3 => runWalk_trig o f hT _ s3)
          (fun fld _ s3 => runWalk_pair o d f hP _ s3) _ h0 ?_ htr
        exact hok
      · exact absurd htr h0
  · simp only [processSpec] at hok htr ⊢
    refine foldR_jump _ (fun s3 => o ∈ s3.visited)
      (fun s3 => (o.name, d) ∈ s3.declMap) names
      (fun nm2 _ s3 h3 hok3 htr3 =>
        valueSpecStep_retain P o d huniq f hJ hT hP specs obj2 names ty vals hd2
          hsp nm2 s3 h3 hok3 htr3)
      (fun nm2 hnm s3 h3 =>
        valueSpecStep_rel P (fun _ => True) _ (trig_ctx P o) f
          (fun c2 s4 _ => hT c2 s4) specs obj2 names ty vals hd2 hsp nm2 hnm s3 h3)
      (fun nm2 hnm s3 h3 =>
        valueSpecStep_rel P (fun _ => True) _ (persist_ctx P o.name d huniq) f
          (fun c2 s4 _ => hP c2 s4) specs obj2 names ty vals hd2 hsp nm2 hnm s3 h3)
      s h0 hok htr

theorem processDecl_retain (P : Program) (o : Obj) (d : Decl)
    (huniq : ∀ d2 ∈ P.decls, declMatches d2 o.name = true → d2 = d)
    (f : Option Obj → St → R)
    (hJ : ∀ c s, (f c s).out = .ok → o ∉ s.visited → o ∈ (f c s).st.visited →
      (o.name, d) ∈ (f c s).st.declMap)
    (hT : ∀ c s, o ∈ s.visited → o ∈ (f c s).st.visited)
    (hP : ∀ c s, (o.name, d) ∈ s.declMap → (o.name, d) ∈ (f c s).st.declMap)
    (obj2 : Obj) (d2 : Decl) (hd2 : d2 ∈ P.decls) (s : St) (h0 : o ∉ s.visited)
    (hok : (processDecl P.info f obj2 d2 s).out = .ok)
    (htr : o ∈ (processDecl P.info f obj2 d2 s).st.visited) :
    (o.name, d) ∈ (processDecl P.info f obj2 d2 s).st.declMap := by
  rcases d2 with ⟨recv, nm, ftype, body⟩ | specs
  · simp only [processDecl] at hok htr ⊢
    by_cases h : nm.name = obj2.name
    case neg =>
      rw [if_neg h] at htr ⊢
      exact absurd htr h0
    case pos =>
      rw [if_pos h] at hok htr ⊢
      rcases body with _ | ids
      · exact absurd htr h0
      · exact foldR_jump f (fun s3 => o ∈ s3.visited)
          (fun s3 => (o.name, d) ∈ s3.declMap) _
          (fun c _ s3 h3 hok3 htr3 => hJ c s3 hok3 h3 htr3)
          (fun c _ s3 => hT c s3) (fun c _ s3 => hP c s3) _ h0 hok htr
  · simp only [processDecl] at hok htr ⊢
    refine foldR_jump _ (fun s3 => o ∈ s3.visited)
      (fun s3 => (o.name, d) ∈ s3.declMap) specs
      (fun sp hsp s3 h3 hok3 htr3 =>
        processSpec_retain P o d huniq f hJ hT hP specs obj2 hd2 sp hsp s3 h3 hok3 htr3)
      (fun sp hsp s3 h3 =>
        processSpec_rel P (fun _ => True) _ (trig_ctx P o) f
          (fun c2 s4 _ => hT c2 s4) specs obj2 hd2 sp hsp s3 h3)
      (fun sp hsp s3 h3 =>
        processSpec_rel P (fun _ => True) _ (persist_ctx P o.name d huniq) f
          (fun c2 s4 _ => hP c2 s4) specs obj2 hd2 sp hsp s3 h3)
      s h0 hok htr

theorem processSpec_post (P : Program) (o : Obj) (specs : List Spec)
    (f : Option Obj → St → R)
    (hP : ∀ c s, (o.name, Decl.genDecl specs) ∈ s.declMap →
      (o.name, Decl.genDecl specs) ∈ (f c s).st.declMap)
    (huniq : ∀ d2 ∈ P.decls, declMatches d2 o.name = true → d2 = Decl.genDecl specs)
    (hd2 : Decl.genDecl specs ∈ P.decls)
    (sp : Spec) (hsp : sp ∈ specs) (s : St)
    (hsm : (∃ n ty, sp = Spec.typeSpec n ty ∧ n.name = o.name) ∨
           (∃ names ty vals, sp = Spec.valueSpec names ty vals ∧
              ∃ n ∈ names, n.name = o.name))
    (hok : (processSpec P.info f (Decl.genDecl specs) o sp s).out = .ok) :
    (o.name, Decl.genDecl specs) ∈
      (processSpec P.info f (Decl.genDecl specs) o sp s).st.declMap := by
  rcases hsm with ⟨n, ty, hde, hname⟩ | ⟨names, ty, vals, hde, n, hn, hname⟩
  · subst hde
    simp only [processSpec]
    rw [if_pos hname]
    have hins := mem_mapInsert_self s.declMap o.name (Decl.genDecl specs)
    split
    · rename_i fields
      exact foldR_rel _
        (fun s3 s4 => (o.name, Decl.genDecl specs) ∈ s3.declMap →
          (o.name, Decl.genDecl specs) ∈ s4.declMap)
        (fun _ h3 => h3) (fun _ _ _ h3 h4 h5 => h4 (h3 h5)) fields
        (fun fld _ s3 => runWalk_pair o (Decl.genDecl specs) f hP _ s3) _ hins
    · exact hins
  · subst hde
    simp only [processSpec] at hok ⊢
    refine foldR_exec _ (fun _ => True)
      (fun s3 => (o.name, Decl.genDecl specs) ∈ s3.declMap) names
      (fun _ _ _ _ => trivial)
      (fun nm2 hnm s3 h3 =>
        valueSpecStep_rel P (fun _ => True) _
          (persist_ctx P o.name (Decl.genDecl specs) huniq) f
          (fun c2 s4 _ => hP c2 s4) specs o names ty vals hd2 hsp nm2 hnm s3 h3)
      n hn
      (fun s3 _ _ =>
        valueSpecStep_post P o (Decl.genDecl specs) f hP specs rfl ty vals n hname s3)
      s trivial hok

theorem processDecl_post (P : Program) (o : Obj) (d : Decl) (hdP : d ∈ P.decls)
    (hm : declMatches d o.name = true)
    (huniq : ∀ d2 ∈ P.decls, declMatches d2 o.name = true → d2 = d)
    (f : Option Obj → St → R)
    (hP : ∀ c s, (o.name, d) ∈ s.declMap → (o.name, d) ∈ (f c s).st.declMap)
    (s : St) (hok : (processDecl P.info f o d s).out = .ok) :
    (o.name, d) ∈ (processDecl P.info f o d s).st.declMap := by
  rcases d with ⟨recv, nm, ftype, body⟩ | specs
  · have hname := declMatches_funcDecl_name recv nm ftype body o.name hm
    simp only [processDecl]
    rw [if_pos hname]
    have hins := mem_mapInsert_self s.declMap o.name (Decl.funcDecl recv nm ftype body)
    rcases body with _ | ids
    · exact hins
    · exact foldR_rel f
        (fun s3 s4 => (o.name, Decl.funcDecl recv nm ftype (some ids)) ∈ s3.declMap →
          (o.name, Decl.funcDecl recv nm ftype (some ids)) ∈ s4.declMap)
        (fun _ h3 => h3) (fun _ _ _ h3 h4 h5 => h4 (h3 h5)) _
        (fun c _ s3 => hP c s3) _ hins
  · rcases declMatches_genDecl_exists specs o.name hm with ⟨sp, hsp, hsm⟩
    simp only [processDecl] at hok ⊢
    refine foldR_exec _ (fun _ => True)
      (fun s3 => (o.name, Decl.genDecl specs) ∈ s3.declMap) specs
      (fun _ _ _ _ => trivial)
      (fun sp2 hsp2 s3 h3 =>
        processSpec_rel P (fun _ => True) _
          (persist_ctx P o.name (Decl.genDecl specs) huniq) f
          (fun c2 s4 _ => hP c2 s4) specs o hdP sp2 hsp2 s3 h3)
      sp hsp
      (fun s3 _ hok3 => processSpec_post P o specs f hP huniq hdP sp hsp s3 hsm hok3)
      s trivial hok

theorem visit_retain (P : Program) (o : Obj) (d : Decl)
    (hdP : d ∈ P.decls) (hm : declMatches d o.name = true)
    (huniq : ∀ d2 ∈ P.decls, declMatches d2 o.name = true → d2 = d) :
    ∀ (fuel : Nat) (c : Option Obj) (s : St),
      (visit P fuel c s).out = .ok → o ∉ s.visited →
      o ∈ (visit P fuel c s).st.visited →
      (o.name, d) ∈ (visit P fuel c s).st.declMap := by
  intro fuel
  induction fuel with
  | zero =>
    intro c s hok h0 htr
    rcases c with _ | o2
    · simp only [visit] at htr ⊢
      exact absurd htr h0
    · simp only [visit] at hok htr ⊢
      by_cases h : o2 ∈ s.visited
      · rw [if_pos h] at htr ⊢
        exact absurd htr h0
      · rw [if_neg h] at hok
        cases hok
  | succ fuel2 ih =>
    intro c s hok h0 htr
    rcases c with _ | o2
    · simp only [visit] at htr ⊢
      exact absurd htr h0
    · simp only [visit] at hok htr ⊢
      by_cases h : o2 ∈ s.visited
      · rw [if_pos h] at htr ⊢
        exact absurd htr h0
      · rw [if_neg h] at hok htr ⊢
        have hT : ∀ c2 s2, o ∈ s2.visited →
            o ∈ (visit P fuel2 c2 s2).st.visited :=
          fun c2 s2 h2 => (visit_grow P fuel2 c2 s2).1 h2
        have hP : ∀ c2 s2, (o.name, d) ∈ s2.declMap →
            (o.name, d) ∈ (visit P fuel2 c2 s2).st.declMap :=
          fun c2 s2 h2 => visit_persist P o.name d huniq fuel2 c2 s2 h2
        by_cases heq : o2 = o
        · subst heq
          refine foldR_exec _ (fun _ => True)
            (fun s2 => (o2.name, d) ∈ s2.declMap) P.decls
            (fun _ _ _ _ => trivial)
            (fun d2 hd2 s2 h2 =>
              processDecl_rel P (fun _ => True) _ (persist_ctx P o2.name d huniq) _
                (fun c2 s4 _ => hP c2 s4) o2 d2 hd2 s2 h2)
            d hdP
            (fun s2 _ hok2 => processDecl_post P o2 d hdP hm huniq _ hP s2 hok2)
            (s.mark o2) trivial hok
        · have h02 : o ∉ (s.mark o2).visited := by
            intro h3
            rcases List.mem_cons.mp h3 with h4 | h4
            · exact heq h4.symm
            · exact h0 h4
          exact foldR_jump _ (fun s3 => o ∈ s3.visited)
            (fun s3 => (o.name, d) ∈ s3.declMap) P.decls
            (fun d2 hd2 s3 h3 hok3 htr3 =>
              processDecl_retain P o d huniq _ ih hT hP o2 d2 hd2 s3 h3 hok3 htr3)
            (fun d2 hd2 s3 h3 =>
              processDecl_rel P (fun _ => True) _ (trig_ctx P o) _
                (fun c2 s4 _ => hT c2 s4) o2 d2 hd2 s3 h3)
            (fun d2 hd2 s3 h3 =>
              processDecl_rel P (fun _ => True) _ (persist_ctx P o.name d huniq) _
                (fun c2 s4 _ => hP c2 s4) o2 d2 hd2 s3 h3)
            (s.mark o2) h02 hok htr

theorem collect_retain (P : Program) (o : Obj) (d : Decl) (i : Ident)
    (hd : d ∈ P.entry) (hE : P.entry ∈ P.files)
    (hi : i ∈ declIdents d) (hres : Info.resolve P.info i = some o)
    (hm : declMatches d o.name = true)
    (huniq : ∀ d2 ∈ P.decls, declMatches d2 o.name = true → d2 = d)
    (hok : (CollectUsedDeclarations P).out = .ok) :
    (o.name, d) ∈ (CollectUsedDeclarations P).st.declMap := by
  have hdP : d ∈ P.decls := by
    unfold Program.decls
    exact List.mem_flatten.mpr ⟨P.entry, hE, hd⟩
  have hiE : i ∈ entryIdents P :=
    List.mem_flatten.mpr ⟨declIdents d, List.mem_map_of_mem _ hd, hi⟩
  have htr := collect_visits P i o hiE hres hok
  unfold CollectUsedDeclarations at hok htr ⊢
  refine foldR_jump _ (fun s3 => o ∈ s3.visited)
    (fun s3 => (o.name, d) ∈ s3.declMap) (seedCalls P)
    (fun c _ s3 h3 hok3 htr3 =>
      visit_retain P o d hdP hm huniq _ c s3 hok3 h3 htr3)
    (fun c _ s3 h3 => (visit_grow P _ c s3).1 h3)
    (fun c _ s3 h3 => visit_persist P o.name d huniq _ c s3 h3)
    _ (by intro h3; cases h3) hok htr

/-! ### The last matching declaration of the scan order wins -/

/-- The last declaration of the scan order matching a name. -/
def lastMatch (P : Program) (nm : String) : Option Decl :=
  ((P.decls).filter (fun d => declMatches d nm)).getLast?

/-- Spec-level name match, mirroring the inner type switch. -/
def specMatches (sp : Spec) (k : String) : Bool :=
  match sp with
  | .importSpec _ _ => false
  | .typeSpec n _ => n.name = k
  | .valueSpec names _ _ => names.any (fun n => n.name = k)

theorem declMatches_genDecl (specs : List Spec) (k : String) :
    declMatches (Decl.genDecl specs) k = specs.any (fun sp => specMatches sp k) := rfl

/-- After a completed sub-run, the recorded declaration of a name is
either untouched or the last matching declaration of the scan order. -/
def DPres (P : Program) (nm : String) (s s2 : St) : Prop :=
  mapLookup s2.declMap nm = mapLookup s.declMap nm ∨
    ((lastMatch P nm).isSome ∧ mapLookup s2.declMap nm = lastMatch P nm)

theorem DPres_refl (P : Program) (nm : String) (s : St) : DPres P nm s s :=
  Or.inl rfl

theorem DPres_trans (P : Program) (nm : String) (s1 s2 s3 : St)
    (h1 : DPres P nm s1 s2) (h2 : DPres P nm s2 s3) : DPres P nm s1 s3 := by
  rcases h2 with h2 | h2
  · rcases h1 with h1 | h1
    · exact Or.inl (h2.trans h1)
    · exact Or.inr ⟨h1.1, h2.trans h1.2⟩
  · exact Or.inr h2

theorem DPres_dl (P : Program) (nm : String) (dl : Decl)
    (hdl : lastMatch P nm = some dl) (s1 s2 : St) (h : DPres P nm s1 s2)
    (h2 : mapLookup s1.declMap nm = some dl) :
    mapLookup s2.declMap nm = some dl := by
  rcases h with h | h
  · exact h.trans h2
  · rw [h.2, hdl]

theorem foldR_relOk {α : Type} (g : α → St → R) (Q : St → St → Prop)
    (hrefl : ∀ s, Q s s) (htrans : ∀ s1 s2 s3, Q s1 s2 → Q s2 s3 → Q s1 s3) :
    ∀ (l : List α), (∀ a ∈ l, ∀ s, (g a s).out = .ok → Q s (g a s).st) →
    ∀ s, (foldR g l s).out = .ok → Q s (foldR g l s).st := by
  intro l
  induction l with
  | nil => intro _ s _; exact hrefl s
  | cons a rest ih =>
    intro hg s hok
    by_cases h2 : (g a s).out = .ok
    · rw [foldR_cons_ok g a rest s h2] at hok ⊢
      exact htrans _ _ _ (hg a (List.mem_cons_self a rest) s h2)
        (ih (fun b hb s2 => hg b (List.mem_cons_of_mem a hb) s2) _ hok)
    · rw [foldR_cons_abort g a rest s h2] at hok
      exact absurd hok h2

theorem foldR_execOk {α : Type} (g : α → St → R) (Ppost : St → Prop) :
    ∀ (l : List α),
    (∀ b ∈ l, ∀ s, (g b s).out = .ok → Ppost s → Ppost (g b s).st) →
    ∀ a ∈ l, (∀ s, (g a s).out = .ok → Ppost (g a s).st) →
    ∀ s, (foldR g l s).out = .ok → Ppost (foldR g l s).st := by
  intro l
  induction l with
  | nil => intro _ a ha; cases ha
  | cons b rest ih =>
    intro hmono a ha hstep s hok
    have hbok : (g b s).out = .ok := by
      by_contra h2
      rw [foldR_cons_abort g b rest s h2] at hok
      exact h2 hok
    rw [foldR_cons_ok g b rest s hbok] at hok ⊢
    rcases List.mem_cons.mp ha with h3 | h3
    · subst h3
      exact foldR_relOk g (fun s1 s2 => Ppost s1 → Ppost s2) (fun _ h => h)
        (fun _ _ _ h1 h2 hp => h2 (h1 hp)) rest
        (fun c hc s2 hok2 hp => hmono c (List.mem_cons_of_mem a hc) s2 hok2 hp)
        (g a s).st hok (hstep s hbok)
    · exact ih (fun c hc => hmono c (List.mem_cons_of_mem b hc)) a h3 hstep
        (g b s).st hok

theorem runWalk_D (P : Program) (nm : String) (f : Option Obj → St → R)
    (hfD : ∀ c s, (f c s).out = .ok → DPres P nm s (f c s).st)
    (w : WalkOut) (s : St) (hok : (runWalk f w s).out = .ok) :
    DPres P nm s (runWalk f w s).st := by
  rcases runWalk_ok_decomp f w s hok with ⟨hfold, _⟩
  rw [runWalk_st]
  exact foldR_relOk f (DPres P nm) (DPres_refl P nm) (DPres_trans P nm) w.calls
    (fun c _ s2 hok2 => hfD c s2 hok2) s hfold

theorem insertDecl_lookup_ne (s : St) (k nm : String) (d : Decl) (h : nm ≠ k) :
    mapLookup (St.insertDecl s k d).declMap nm = mapLookup s.declMap nm :=
  mapLookup_mapInsert_ne s.declMap k nm d h

theorem valueSpecStep_D (P : Program) (nm : String) (f : Option Obj → St → R)
    (hfD : ∀ c s, (f c s).out = .ok → DPres P nm s (f c s).st)
    (da : Decl) (obj2 : Obj) (ty : Option Expr) (vals : List Expr) (nm2 : Ident)
    (h2 : obj2.name = nm → ¬ nm2.name = obj2.name) (s : St)
    (hok : (valueSpecStep P.info f da obj2 ty vals nm2 s).out = .ok) :
    DPres P nm s (valueSpecStep P.info f da obj2 ty vals nm2 s).st := by
  unfold valueSpecStep at hok ⊢
  by_cases hg : nm2.name = obj2.name
  case neg =>
    rw [if_neg hg]
    exact DPres_refl P nm s
  case pos =>
    rw [if_pos hg] at hok ⊢
    have hne : nm ≠ obj2.name := fun h3 => h2 h3.symm hg
    have hD1 : DPres P nm s (St.insertDecl s obj2.name da) :=
      Or.inl (insertDecl_lookup_ne s obj2.name nm da hne)
    rcases ty with _ | t
    · rcases andThen_ok _ _ hok with ⟨hr1, heq⟩
      rw [heq] at hok ⊢
      refine DPres_trans P nm _ _ _ hD1 ?_
      exact foldR_relOk _ (DPres P nm) (DPres_refl P nm) (DPres_trans P nm) vals
        (fun v _ s3 hok3 => runWalk_D P nm f hfD _ s3 hok3) _ hok
    · rcases andThen_ok _ _ hok with ⟨hr1, heq⟩
      rw [heq] at hok ⊢
      refine DPres_trans P nm _ _ _
        (DPres_trans P nm _ _ _ hD1 (runWalk_D P nm f hfD _ _ hr1)) ?_
      exact foldR_relOk _ (DPres P nm) (DPres_refl P nm) (DPres_trans P nm) vals
        (fun v _ s3 hok3 => runWalk_D P nm f hfD _ s3 hok3) _ hok

theorem processSpec_D (P : Program) (nm : String) (f : Option Obj → St → R)
    (hfD : ∀ c s, (f c s).out = .ok → DPres P nm s (f c s).st)
    (da : Decl) (obj2 : Obj) (sp : Spec)
    (h2 : obj2.name = nm → specMatches sp nm = false) (s : St)
    (hok : (processSpec P.info f da obj2 sp s).out = .ok) :
    DPres P nm s (processSpec P.info f da obj2 sp s).st := by
  rcases sp with ⟨onm, path⟩ | ⟨n, ty⟩ | ⟨names, ty, vals⟩
  · exact DPres_refl P nm s
  · simp only [processSpec] at hok ⊢
    by_cases hg : n.name = obj2.name
    case neg =>
      rw [if_neg hg]
      exact DPres_refl P nm s
    case pos =>
      rw [if_pos hg] at hok ⊢
      have hne : nm ≠ obj2.name := by
        intro h3
        have h4 := h2 h3.symm
        simp [specMatches] at h4
        exact h4 (hg.trans h3.symm)
      have hD1 : DPres P nm s (St.insertDecl s obj2.name da) :=
        Or.inl (insertDecl_lookup_ne s obj2.name nm da hne)
      split at hok
      · rename_i fields
        refine DPres_trans P nm _ _ _ hD1 ?_
        exact foldR_relOk _ (DPres P nm) (DPres_refl P nm) (DPres_trans P nm) fields
          (fun fld _ s3 hok3 => runWalk_D P nm f hfD _ s3 hok3) _ hok
      · exact hD1
  · simp only [processSpec] at hok ⊢
    refine foldR_relOk _ (DPres P nm) (DPres_refl P nm) (DPres_trans P nm) names
      ?_ s hok
    intro nm2 hnm s3 hok3
    refine valueSpecStep_D P nm f hfD da obj2 ty vals nm2 ?_ s3 hok3
    intro h3 hg
    have h4 := h2 h3
    simp only [specMatches, List.any_eq_false] at h4
    have h5 := h4 nm2 hnm
    simp at h5
    exact h5 (hg.trans h3)

theorem processDecl_D (P : Program) (nm : String) (f : Option Obj → St → R)
    (hfD : ∀ c s, (f c s).out = .ok → DPres P nm s (f c s).st)
    (obj2 : Obj) (d2 : Decl)
    (h2 : obj2.name = nm → declMatches d2 nm = false) (s : St)
    (hok : (processDecl P.info f obj2 d2 s).out = .ok) :
    DPres P nm s (processDecl P.info f obj2 d2 s).st := by
  rcases d2 with ⟨recv, nmf, ftype, body⟩ | specs
  · simp only [processDecl] at hok ⊢
    by_cases hg : nmf.name = obj2.name
    case neg =>
      rw [if_neg hg]
      exact DPres_refl P nm s
    case pos =>
      rw [if_pos hg] at hok ⊢
      have hne : nm ≠ obj2.name := by
        intro h3
        have h4 := h2 h3.symm
        simp [declMatches] at h4
        exact h4 (hg.trans h3.symm)
      have hD1 : DPres P nm s
          (St.insertDecl s obj2.name (Decl.funcDecl recv nmf ftype body)) :=
        Or.inl (insertDecl_lookup_ne s obj2.name nm _ hne)
      rcases body with _ | ids
      · exact hD1
      · refine DPres_trans P nm _ _ _ hD1 ?_
        exact foldR_relOk f (DPres P nm) (DPres_refl P nm) (DPres_trans P nm) _
          (fun c _ s3 hok3 => hfD c s3 hok3) _ hok
  · simp only [processDecl] at hok ⊢
    refine foldR_relOk _ (DPres P nm) (DPres_refl P nm) (DPres_trans P nm) specs
      ?_ s hok
    intro sp hsp s3 hok3
    refine processSpec_D P nm f hfD (Decl.genDecl specs) obj2 sp ?_ s3 hok3
    intro h3
    have h4 := h2 h3
    rw [declMatches_genDecl] at h4
    rw [List.any_eq_false] at h4
    exact Bool.eq_false_iff.mpr (h4 sp hsp)

theorem valueSpecStep_E (P : Program) (nm : String) (dl : Decl)
    (hdl : lastMatch P nm = some dl) (f : Option Obj → St → R)
    (hfD : ∀ c s, (f c s).out = .ok → DPres P nm s (f c s).st)
    (da : Decl) (hde : da = dl) (obj2 : Obj) (hname : obj2.name = nm)
    (ty : Option Expr) (vals : List Expr) (nm2 : Ident) (hg : nm2.name = obj2.name)
    (s : St) (hok : (valueSpecStep P.info f da obj2 ty vals nm2 s).out = .ok) :
    mapLookup (valueSpecStep P.info f da obj2 ty vals nm2 s).st.declMap nm = some dl := by
  unfold valueSpecStep at hok ⊢
  rw [if_pos hg] at hok ⊢
  have hins : mapLookup (St.insertDecl s obj2.name da).declMap nm = some dl := by
    show mapLookup (mapInsert s.declMap obj2.name da) nm = some dl
    rw [hname, hde]
    exact mapLookup_mapInsert_self s.declMap nm dl
  rcases ty with _ | t
  · rcases andThen_ok _ _ hok with ⟨hr1, heq⟩
    rw [heq] at hok ⊢
    have hD := foldR_relOk _ (DPres P nm) (DPres_refl P nm) (DPres_trans P nm) vals
      (fun v _ s3 hok3 => runWalk_D P nm f hfD _ s3 hok3) _ hok
    exact DPres_dl P nm dl hdl _ _ hD hins
  · rcases andThen_ok _ _ hok with ⟨hr1, heq⟩
    rw [heq] at hok ⊢
    have hD1 := runWalk_D P nm f hfD (visitTypeExpr P.info t) _ hr1
    have h4 := DPres_dl P nm dl hdl _ _ hD1 hins
    have hD2 := foldR_relOk _ (DPres P nm) (DPres_refl P nm) (DPres_trans P nm) vals
      (fun v _ s3 hok3 => runWalk_D P nm f hfD _ s3 hok3) _ hok
    exact DPres_dl P nm dl hdl _ _ hD2 h4

theorem processSpec_E (P : Program) (nm : String) (dl : Decl)
    (hdl : lastMatch P nm = some dl) (f : Option Obj → St → R)
    (hfD : ∀ c s, (f c s).out = .ok → DPres P nm s (f c s).st)
    (obj2 : Obj) (hname : obj2.name = nm)
    (specs : List Spec) (hde : Decl.genDecl specs = dl) (sp : Spec)
    (hsm : specMatches sp nm = true) (s : St)
    (hok : (processSpec P.info f (Decl.genDecl specs) obj2 sp s).out = .ok) :
    mapLookup (processSpec P.info f (Decl.genDecl specs) obj2 sp s).st.declMap nm
      = some dl := by
  rcases sp with ⟨onm, path⟩ | ⟨n, ty⟩ | ⟨names, ty, vals⟩
  · simp [specMatches] at hsm
  · have hg : n.name = obj2.name := by
      simp only [specMatches] at hsm
      rw [hname]
      simpa using hsm
    simp only [processSpec] at hok ⊢
    rw [if_pos hg] at hok ⊢
    have hins : mapLookup (St.insertDecl s obj2.name (Decl.genDecl specs)).declMap nm
        = some dl := by
      show mapLookup (mapInsert s.declMap obj2.name (Decl.genDecl specs)) nm = some dl
      rw [hname, hde]
      exact mapLookup_mapInsert_self s.declMap nm dl
    split at hok
    · rename_i fields
      have hD := foldR_relOk _ (DPres P nm) (DPres_refl P nm) (DPres_trans P nm) fields
        (fun fld _ s3 hok3 => runWalk_D P nm f hfD _ s3 hok3) _ hok
      exact DPres_dl P nm dl hdl _ _ hD hins
    · exact hins
  · have hex : ∃ n ∈ names, n.name = nm := by
      simp only [specMatches, List.any_eq_true] at hsm
      rcases hsm with ⟨n, hn, h5⟩
      exact ⟨n, hn, by simpa using h5⟩
    rcases hex with ⟨n, hn, hnn⟩
    simp only [processSpec] at hok ⊢
    refine foldR_execOk _ (fun s3 => mapLookup s3.declMap nm = some dl) names
      ?_ n hn ?_ s hok
    · intro nm2 hnm2 s3 hok3 h3
      by_cases hg2 : nm2.name = obj2.name
      · exact valueSpecStep_E P nm dl hdl f hfD (Decl.genDecl specs) hde obj2 hname
          ty vals nm2 hg2 s3 hok3
      · unfold valueSpecStep
        rw [if_neg hg2]
        exact h3
    · intro s3 hok3
      exact valueSpecStep_E P nm dl hdl f hfD (Decl.genDecl specs) hde obj2 hname
        ty vals n (hnn.trans hname.symm) s3 hok3

theorem processDecl_E (P : Program) (nm : String) (dl : Decl)
    (hdl : lastMatch P nm = some dl) (f : Option Obj → St → R)
    (hfD : ∀ c s, (f c s).out = .ok → DPres P nm s (f c s).st)
    (obj2 : Obj) (hname : obj2.name = nm)
    (d2 : Decl) (hde : d2 = dl) (hm : declMatches d2 nm = true) (s : St)
    (hok : (processDecl P.info f obj2 d2 s).out = .ok) :
    mapLookup (processDecl P.info f obj2 d2 s).st.declMap nm = some dl := by
  rcases d2 with ⟨recv, nmf, ftype, body⟩ | specs
  · have hname2 := declMatches_funcDecl_name recv nmf ftype body nm hm
    have hg : nmf.name = obj2.name := hname2.trans hname.symm
    simp only [processDecl] at hok ⊢
    rw [if_pos hg] at hok ⊢
    have hins : mapLookup
        (St.insertDecl s obj2.name (Decl.funcDecl recv nmf ftype body)).declMap nm
        = some dl := by
      show mapLookup (mapInsert s.declMap obj2.name (Decl.funcDecl recv nmf ftype body))
        nm = some dl
      rw [hname, ← hde]
      exact mapLookup_mapInsert_self s.declMap nm _
    rcases body with _ | ids
    · exact hins
    · have hD := foldR_relOk f (DPres P nm) (DPres_refl P nm) (DPres_trans P nm) _
        (fun c _ s3 hok3 => hfD c s3 hok3) _ hok
      exact DPres_dl P nm dl hdl _ _ hD hins
  · have hex : ∃ sp ∈ specs, specMatches sp nm = true := by
      rw [declMatches_genDecl, List.any_eq_true] at hm
      exact hm
    rcases hex with ⟨sp, hsp, hsm⟩
    simp only [processDecl] at hok ⊢
    refine foldR_execOk _ (fun s3 => mapLookup s3.declMap nm = some dl) specs
      ?_ sp hsp ?_ s hok
    · intro sp2 hsp2 s3 hok3 h3
      by_cases hsm2 : specMatches sp2 nm = true
      · exact processSpec_E P nm dl hdl f hfD obj2 hname specs hde sp2 hsm2 s3 hok3
      · have hD := processSpec_D P nm f hfD (Decl.genDecl specs) obj2 sp2
          (fun _ => Bool.eq_false_iff.mpr hsm2) s3 hok3
        exact DPres_dl P nm dl hdl _ _ hD h3
    · intro s3 hok3
      exact processSpec_E P nm dl hdl f hfD obj2 hname specs hde sp hsm s3 hok3

theorem scanFold_E (P : Program) (nm : String) (dl : Decl)
    (hdl : lastMatch P nm = some dl) (f : Option Obj → St → R)
    (hfD : ∀ c s, (f c s).out = .ok → DPres P nm s (f c s).st)
    (obj2 : Obj) (hname : obj2.name = nm) :
    ∀ (l : List Decl),
      (l.filter (fun d2 => declMatches d2 nm)).getLast? = some dl →
      ∀ s, (foldR (processDecl P.info f obj2) l s).out = .ok →
      mapLookup (foldR (processDecl P.info f obj2) l s).st.declMap nm = some dl := by
  intro l
  induction l with
  | nil =>
    intro hl
    simp at hl
  | cons d2 rest ih =>
    intro hl s hok
    have hbok : (processDecl P.info f obj2 d2 s).out = .ok := by
      by_contra h2
      rw [foldR_cons_abort _ _ _ _ h2] at hok
      exact h2 hok
    rw [foldR_cons_ok _ _ _ _ hbok] at hok ⊢
    by_cases hm : declMatches d2 nm = true
    case pos =>
      have hfc : (d2 :: rest).filter (fun d3 => declMatches d3 nm)
          = d2 :: rest.filter (fun d3 => declMatches d3 nm) := by
        simp [List.filter_cons, hm]
      rw [hfc] at hl
      rcases h3 : rest.filter (fun d3 => declMatches d3 nm) with _ | ⟨r1, rrest⟩
      · rw [h3] at hl
        simp at hl
        have hstep := processDecl_E P nm dl hdl f hfD obj2 hname d2 hl hm s hbok
        have hrest : ∀ d3 ∈ rest, declMatches d3 nm = false :=
          fun d3 hd3 => Bool.eq_false_iff.mpr ((List.filter_eq_nil_iff.mp h3) d3 hd3)
        have hD := foldR_relOk _ (DPres P nm) (DPres_refl P nm) (DPres_trans P nm) rest
          (fun d3 hd3 s3 hok3 =>
            processDecl_D P nm f hfD obj2 d3 (fun _ => hrest d3 hd3) s3 hok3) _ hok
        exact DPres_dl P nm dl hdl _ _ hD hstep
      · have h5 : (rest.filter (fun d3 => declMatches d3 nm)).getLast? = some dl := by
          rw [h3] at hl ⊢
          rw [List.getLast?_cons_cons] at hl
          exact hl
        exact ih h5 _ hok
    case neg =>
      have h5 : (rest.filter (fun d3 => declMatches d3 nm)).getLast? = some dl := by
        have hfc : (d2 :: rest).filter (fun d3 => declMatches d3 nm)
            = rest.filter (fun d3 => declMatches d3 nm) := by
          simp [List.filter_cons, hm]
        rw [hfc] at hl
        exact hl
      exact ih h5 _ hok

theorem visit_last (P : Program) (nm : String) :
    ∀ (fuel : Nat) (c : Option Obj) (s : St),
      (visit P fuel c s).out = .ok →
      DPres P nm s (visit P fuel c s).st ∧
      (∀ o, c = some o → o.name = nm → o ∉ s.visited →
        ∀ dl, lastMatch P nm = some dl →
        mapLookup (visit P fuel c s).st.declMap nm = some dl) := by
  intro fuel
  induction fuel with
  | zero =>
    intro c s hok
    rcases c with _ | o2
    · exact ⟨DPres_refl P nm s, fun o heq => by cases heq⟩
    · simp only [visit] at hok ⊢
      by_cases h : o2 ∈ s.visited
      · rw [if_pos h] at hok ⊢
        refine ⟨DPres_refl P nm s, ?_⟩
        intro o heq hn h0
        cases heq
        exact absurd h h0
      · rw [if_neg h] at hok
        cases hok
  | succ fuel2 ih =>
    intro c s hok
    rcases c with _ | o2
    · simp only [visit] at hok ⊢
      exact ⟨DPres_refl P nm s, fun o heq => by cases heq⟩
    · simp only [visit] at hok ⊢
      by_cases h : o2 ∈ s.visited
      · rw [if_pos h] at hok ⊢
        refine ⟨DPres_refl P nm s, ?_⟩
        intro o heq hn h0
        cases heq
        exact absurd h h0
      · rw [if_neg h] at hok ⊢
        have hfD : ∀ c2 s2, (visit P fuel2 c2 s2).out = .ok →
            DPres P nm s2 (visit P fuel2 c2 s2).st :=
          fun c2 s2 hok2 => (ih c2 s2 hok2).1
        by_cases hname : o2.name = nm
        · by_cases hLM : (lastMatch P nm).isSome
          case neg =>
            have h5 : lastMatch P nm = none := Option.not_isSome_iff_eq_none.mp hLM
            have hall : ∀ d2 ∈ P.decls, declMatches d2 nm = false := by
              unfold lastMatch at h5
              rw [List.getLast?_eq_none_iff] at h5
              exact fun d2 hd2 =>
                Bool.eq_false_iff.mpr ((List.filter_eq_nil_iff.mp h5) d2 hd2)
            have hD := foldR_relOk _ (DPres P nm) (DPres_refl P nm) (DPres_trans P nm)
              P.decls
              (fun d2 hd2 s3 hok3 =>
                processDecl_D P nm _ hfD o2 d2 (fun _ => hall d2 hd2) s3 hok3) _ hok
            refine ⟨DPres_trans P nm _ _ _ (Or.inl rfl) hD, ?_⟩
            intro o heq hn h0 dl hdl
            rw [hdl] at h5
            cases h5
          case pos =>
            rcases Option.isSome_iff_exists.mp hLM with ⟨dl, h5⟩
            have hE := scanFold_E P nm dl h5 _ hfD o2 hname P.decls
              (by unfold lastMatch at h5; exact h5) _ hok
            constructor
            · refine Or.inr ⟨hLM, ?_⟩
              rw [h5]
              exact hE
            · intro o heq hn h0 dl2 hdl2
              rw [h5] at hdl2
              injection hdl2 with h6
              rw [← h6]
              exact hE
        · have hD := foldR_relOk _ (DPres P nm) (DPres_refl P nm) (DPres_trans P nm)
            P.decls
            (fun d2 hd2 s3 hok3 =>
              processDecl_D P nm _ hfD o2 d2 (fun h3 => absurd h3 hname) s3 hok3) _ hok
          refine ⟨DPres_trans P nm _ _ _ (Or.inl rfl) hD, ?_⟩
          intro o heq hn h0 dl hdl
          cases heq
          exact absurd hn hname

theorem collect_lastMatch (P : Program) (nm : String)
    (hok : (CollectUsedDeclarations P).out = .ok)
    (hmem : nm ∈ (CollectUsedDeclarations P).st.declMap.map Prod.fst) :
    mapLookup (CollectUsedDeclarations P).st.declMap nm = lastMatch P nm := by
  have hsome := mem_keys_mapLookup_isSome _ nm hmem
  have hD : DPres P nm ⟨[], [], []⟩ (CollectUsedDeclarations P).st := by
    unfold CollectUsedDeclarations at hok ⊢
    exact foldR_relOk _ (DPres P nm) (DPres_refl P nm) (DPres_trans P nm) (seedCalls P)
      (fun c _ s3 hok3 => (visit_last P nm _ c s3 hok3).1) _ hok
  rcases hD with hD | hD
  · rw [hD] at hsome
    simp [mapLookup] at hsome
  · exact hD.2

theorem collect_keys_nodup (P : Program) :
    ((CollectUsedDeclarations P).st.declMap.map Prod.fst).Nodup := by
  unfold CollectUsedDeclarations
  refine foldR_rel _ (fun s1 s2 => KeysN s1 → KeysN s2) (fun _ h => h)
    (fun _ _ _ h1 h2 h => h2 (h1 h)) (seedCalls P)
    (fun c _ s2 => visit_rel P _ _ (kn_ctx P) _ c s2 (fun _ _ => trivial)) _ ?_
  simp [KeysN]

theorem collect_dmgood (P : Program) : DMgood P (CollectUsedDeclarations P).st := by
  unfold CollectUsedDeclarations
  refine foldR_rel _ (fun s1 s2 => DMgood P s1 → DMgood P s2) (fun _ h => h)
    (fun _ _ _ h1 h2 h => h2 (h1 h)) (seedCalls P)
    (fun c _ s2 => visit_rel P _ _ (dm_ctx P) _ c s2 (fun _ _ => trivial)) _ ?_
  intro p hp
  cases hp

theorem collect_no_nofuel (P : Program) : (CollectUsedDeclarations P).out ≠ .nofuel := by
  unfold CollectUsedDeclarations
  have hN0 : (remObjs P (⟨[], [], []⟩ : St)).card < (allObjs P).length + 1 := by
    have h1 : remObjs P ⟨[], [], []⟩ ⊆ (allObjs P).toFinset := Finset.sdiff_subset
    have h2 := Finset.card_le_card h1
    have h3 := List.toFinset_card_le (allObjs P)
    omega
  refine (foldR_nf (fun c s => visit P ((allObjs P).length + 1) c s)
    (fun s => (remObjs P s).card < (allObjs P).length + 1) (seedCalls P)
    ?_ _ hN0).1
  intro c hc s hN
  have hg : GoodCall (fun o => o ∈ allObjs P) c := by
    intro o ho
    rcases seed_calls_res P c hc with ⟨i, hi, he⟩
    rw [he] at ho
    exact resolve_mem_allObjs P i o ho
  exact ⟨visit_nf P _ c s hg hN,
    Nat.lt_of_le_of_lt (visit_measure P _ c s) hN⟩

/-! ### A resolved occurrence inside an expanded declaration reaches the
used set -/

theorem runWalk_touch (P : Program) (fuel : Nat) (S : Obj) (w : WalkOut)
    (hS : some S ∈ w.calls) (s : St) (hnu : NU s)
    (hok : (runWalk (fun c s2 => visit P fuel c s2) w s).out = .ok) :
    S.name ∈ (runWalk (fun c s2 => visit P fuel c s2) w s).st.used := by
  rcases runWalk_ok_decomp _ w s hok with ⟨hfold, _⟩
  rw [runWalk_st]
  refine foldR_exec _ NU (fun s2 => S.name ∈ s2.used) w.calls
    (fun c _ s2 h2 => visit_nu P fuel c s2 h2)
    (fun c _ s2 h2 => (visit_grow P fuel c s2).2 h2)
    (some S) hS
    (fun s2 hnu2 hok2 => visit_marks P fuel S s2 hok2 hnu2)
    s hnu hfold

theorem runWalk_nu (P : Program) (fuel : Nat) (w : WalkOut) (s : St) (h : NU s) :
    NU (runWalk (fun c s2 => visit P fuel c s2) w s).st :=
  runWalk_rel P (fun _ => True) (fun s1 s2 => NU s1 → NU s2) (nu_ctx P) _
    (fun c s2 _ => visit_nu P fuel c s2) w (fun _ _ _ _ => trivial) s h

theorem runWalk_usedgrow (P : Program) (fuel : Nat) (w : WalkOut) (s : St)
    (n : String) (h : n ∈ s.used) :
    n ∈ (runWalk (fun c s2 => visit P fuel c s2) w s).st.used :=
  (runWalk_rel P (fun _ => True) Grow (grow_ctx P) _
    (fun c s2 _ => visit_grow P fuel c s2) w (fun _ _ _ _ => trivial) s).2 h

theorem valueSpecStep_touch (P : Program) (fuel : Nat) (o : Obj) (da : Decl)
    (S : Obj) (ty : Option Expr) (vals : List Expr) (nm : Ident)
    (hmatch : nm.name = o.name) (v : Expr) (hv : v ∈ vals)
    (hcall : some S ∈ (visitExpr P.info v).calls)
    (s : St) (hnu : NU s)
    (hok : (valueSpecStep P.info (fun c s2 => visit P fuel c s2) da o ty vals nm s).out
      = .ok) :
    S.name ∈
      (valueSpecStep P.info (fun c s2 => visit P fuel c s2) da o ty vals nm s).st.used := by
  unfold valueSpecStep at hok ⊢
  rw [if_pos hmatch] at hok ⊢
  rcases ty with _ | t
  · rcases andThen_ok _ _ hok with ⟨hr1, heq⟩
    rw [heq] at hok ⊢
    refine foldR_exec
      (fun v2 s3 => runWalk (fun c s2 => visit P fuel c s2) (visitExpr P.info v2) s3)
      NU (fun s2 => S.name ∈ s2.used) vals
      (fun v2 _ s2 h2 => runWalk_nu P fuel _ s2 h2)
      (fun v2 _ s2 h2 => runWalk_usedgrow P fuel _ s2 _ h2)
      v hv
      (fun s2 hnu2 hok2 => runWalk_touch P fuel S _ hcall s2 hnu2 hok2)
      _ hnu hok
  · rcases andThen_ok _ _ hok with ⟨hr1, heq⟩
    rw [heq] at hok ⊢
    refine foldR_exec
      (fun v2 s3 => runWalk (fun c s2 => visit P fuel c s2) (visitExpr P.info v2) s3)
      NU (fun s2 => S.name ∈ s2.used) vals
      (fun v2 _ s2 h2 => runWalk_nu P fuel _ s2 h2)
      (fun v2 _ s2 h2 => runWalk_usedgrow P fuel _ s2 _ h2)
      v hv
      (fun s2 hnu2 hok2 => runWalk_touch P fuel S _ hcall s2 hnu2 hok2)
      _ ?_ hok
    exact runWalk_nu P fuel _ _ hnu

theorem processSpec_touch_ts (P : Program) (fuel : Nat) (o : Obj) (da : Decl)
    (S : Obj) (nm : Ident) (fields : List (List Ident × Expr))
    (hmatch : nm.name = o.name)
    (fld : List Ident × Expr) (hfld : fld ∈ fields)
    (hcall : some S ∈ (visitTypeExpr P.info fld.2).calls)
    (s : St) (hnu : NU s)
    (hok : (processSpec P.info (fun c s2 => visit P fuel c s2) da o
      (Spec.typeSpec nm (Expr.structT fields)) s).out = .ok) :
    S.name ∈ (processSpec P.info (fun c s2 => visit P fuel c s2) da o
      (Spec.typeSpec nm (Expr.structT fields)) s).st.used := by
  simp only [processSpec] at hok ⊢
  rw [if_pos hmatch] at hok ⊢
  refine foldR_exec
    (fun fld2 s3 => runWalk (fun c s2 => visit P fuel c s2)
      (visitTypeExpr P.info fld2.2) s3)
    NU (fun s2 => S.name ∈ s2.used) fields
    (fun fld2 _ s2 h2 => runWalk_nu P fuel _ s2 h2)
    (fun fld2 _ s2 h2 => runWalk_usedgrow P fuel _ s2 _ h2)
    fld hfld
    (fun s2 hnu2 hok2 => runWalk_touch P fuel S _ hcall s2 hnu2 hok2)
    (St.insertDecl s o.name da) hnu hok

theorem processSpec_touch_vs (P : Program) (fuel : Nat) (o : Obj) (da : Decl)
    (S : Obj) (names : List Ident) (ty : Option Expr) (vals : List Expr)
    (nm : Ident) (hnm : nm ∈ names) (hmatch : nm.name = o.name)
    (v : Expr) (hv : v ∈ vals)
    (hcall : some S ∈ (visitExpr P.info v).calls)
    (s : St) (hnu : NU s)
    (hok : (processSpec P.info (fun c s2 => visit P fuel c s2) da o
      (Spec.valueSpec names ty vals) s).out = .ok) :
    S.name ∈ (processSpec P.info (fun c s2 => visit P fuel c s2) da o
      (Spec.valueSpec names ty vals) s).st.used := by
  simp only [processSpec] at hok ⊢
  refine foldR_exec
    (valueSpecStep P.info (fun c s2 => visit P fuel c s2) da o ty vals)
    NU (fun s2 => S.name ∈ s2.used) names
    ?_ ?_ nm hnm
    (fun s2 hnu2 hok2 =>
      valueSpecStep_touch P fuel o da S ty vals nm hmatch v hv hcall s2 hnu2 hok2)
    _ hnu hok
  · intro nm2 _ s2 h2
    unfold valueSpecStep
    by_cases hg : nm2.name = o.name
    · rw [if_pos hg]
      rcases ty with _ | t
      · unfold andThen
        rcases h3 : (R.out ⟨St.insertDecl s2 o.name da, Outcome.ok⟩) with _ | _ | _
        · refine foldR_rel _ (fun s3 s4 => NU s3 → NU s4) (fun _ h => h)
            (fun _ _ _ h3 h4 h5 => h4 (h3 h5)) vals
            (fun v2 _ s3 => runWalk_nu P fuel _ s3) _ h2
        · exact h2
        · exact h2
      · unfold andThen
        rcases h3 : (runWalk (fun c s3 => visit P fuel c s3) (visitTypeExpr P.info t)
            (St.insertDecl s2 o.name da)).out with _ | _ | _
        · refine foldR_rel _ (fun s3 s4 => NU s3 → NU s4) (fun _ h => h)
            (fun _ _ _ h3 h4 h5 => h4 (h3 h5)) vals
            (fun v2 _ s3 => runWalk_nu P fuel _ s3) _ ?_
          exact runWalk_nu P fuel _ _ h2
        · exact runWalk_nu P fuel _ _ h2
        · exact runWalk_nu P fuel _ _ h2
    · rw [if_neg hg]
      exact h2
  · intro nm2 _ s2 h2
    unfold valueSpecStep
    by_cases hg : nm2.name = o.name
    · rw [if_pos hg]
      rcases ty with _ | t
      · unfold andThen
        rcases h3 : (R.out ⟨St.insertDecl s2 o.name da, Outcome.ok⟩) with _ | _ | _
        · refine foldR_rel _ (fun s3 s4 => S.name ∈ s3.used → S.name ∈ s4.used)
            (fun _ h => h) (fun _ _ _ h3 h4 h5 => h4 (h3 h5)) vals
            (fun v2 _ s3 => runWalk_usedgrow P fuel _ s3 _) _ h2
        · exact h2
        · exact h2
      · unfold andThen
        rcases h3 : (runWalk (fun c s3 => visit P fuel c s3) (visitTypeExpr P.info t)
            (St.insertDecl s2 o.name da)).out with _ | _ | _
        · refine foldR_rel _ (fun s3 s4 => S.name ∈ s3.used → S.name ∈ s4.used)
            (fun _ h => h) (fun _ _ _ h3 h4 h5 => h4 (h3 h5)) vals
            (fun v2 _ s3 => runWalk_usedgrow P fuel _ s3 _) _ ?_
          exact runWalk_usedgrow P fuel _ _ _ h2
        · exact runWalk_usedgrow P fuel _ _ _ h2
        · exact runWalk_usedgrow P fuel _ _ _ h2
    · rw [if_neg hg]
      exact h2

theorem processDecl_touch (P : Program) (fuel : Nat) (o : Obj) (d : Decl) (S : Obj)
    (hd : d ∈ P.decls)
    (hcase :
      (∃ recv nm ftype ids, d = Decl.funcDecl recv nm ftype (some ids) ∧
        nm.name = o.name ∧ ∃ i ∈ ids, Info.resolve P.info i = some S) ∨
      (∃ specs nm fields, d = Decl.genDecl specs ∧
        Spec.typeSpec nm (Expr.structT fields) ∈ specs ∧ nm.name = o.name ∧
        ∃ fld ∈ fields, some S ∈ (visitTypeExpr P.info fld.2).calls) ∨
      (∃ specs names ty vals nm, d = Decl.genDecl specs ∧
        Spec.valueSpec names ty vals ∈ specs ∧ nm ∈ names ∧ nm.name = o.name ∧
        ∃ v ∈ vals, some S ∈ (visitExpr P.info v).calls))
    (s : St) (hnu : NU s)
    (hok : (processDecl P.info (fun c s2 => visit P fuel c s2) o d s).out = .ok) :
    S.name ∈ (processDecl P.info (fun c s2 => visit P fuel c s2) o d s).st.used := by
  rcases hcase with ⟨recv, nm, ftype, ids, hde, hmatch, i, hi, hres⟩ |
    ⟨specs, nm, fields, hde, hsp, hmatch, fld, hfld, hcall⟩ |
    ⟨specs, names, ty, vals, nm, hde, hsp, hnm, hmatch, v, hv, hcall⟩
  · subst hde
    simp only [processDecl] at hok ⊢
    rw [if_pos hmatch] at hok ⊢
    have hmem : some S ∈ ids.map (fun i2 => Info.resolve P.info i2) :=
      List.mem_map.mpr ⟨i, hi, hres⟩
    refine foldR_exec
      (fun c s3 => visit P fuel c s3)
      NU (fun s2 => S.name ∈ s2.used) _
      (fun c _ s2 h2 => visit_nu P fuel c s2 h2)
      (fun c _ s2 h2 => (visit_grow P fuel c s2).2 h2)
      (some S) hmem
      (fun s2 hnu2 hok2 => visit_marks P fuel S s2 hok2 hnu2)
      (St.insertDecl s o.name (Decl.funcDecl recv nm ftype (some ids))) hnu hok
  · subst hde
    simp only [processDecl] at hok ⊢
    refine foldR_exec
      (processSpec P.info (fun c s2 => visit P fuel c s2) (Decl.genDecl specs) o)
      NU (fun s2 => S.name ∈ s2.used) specs
      (fun sp2 hsp2 s2 h2 =>
        processSpec_rel P (fun _ => True) _ (nu_ctx P) _
          (fun c s3 _ => visit_nu P fuel c s3) specs o hd sp2 hsp2 s2 h2)
      (fun sp2 hsp2 s2 h2 =>
        (processSpec_rel P (fun _ => True) Grow (grow_ctx P) _
          (fun c s3 _ => visit_grow P fuel c s3) specs o hd sp2 hsp2 s2).2 h2)
      (Spec.typeSpec nm (Expr.structT fields)) hsp
      (fun s2 hnu2 hok2 =>
        processSpec_touch_ts P fuel o (Decl.genDecl specs) S nm fields hmatch
          fld hfld hcall s2 hnu2 hok2)
      s hnu hok
  · subst hde
    simp only [processDecl] at hok ⊢
    refine foldR_exec
      (processSpec P.info (fun c s2 => visit P fuel c s2) (Decl.genDecl specs) o)
      NU (fun s2 => S.name ∈ s2.used) specs
      (fun sp2 hsp2 s2 h2 =>
        processSpec_rel P (fun _ => True) _ (nu_ctx P) _
          (fun c s3 _ => visit_nu P fuel c s3) specs o hd sp2 hsp2 s2 h2)
      (fun sp2 hsp2 s2 h2 =>
        (processSpec_rel P (fun _ => True) Grow (grow_ctx P) _
          (fun c s3 _ => visit_grow P fuel c s3) specs o hd sp2 hsp2 s2).2 h2)
      (Spec.valueSpec names ty vals) hsp
      (fun s2 hnu2 hok2 =>
        processSpec_touch_vs P fuel o (Decl.genDecl specs) S names ty vals nm hnm
          hmatch v hv hcall s2 hnu2 hok2)
      s hnu hok

theorem visit_touch (P : Program) (fuel : Nat) (o : Obj) (d : Decl) (S : Obj)
    (hd : d ∈ P.decls)
    (hcase :
      (∃ recv nm ftype ids, d = Decl.funcDecl recv nm ftype (some ids) ∧
        nm.name = o.name ∧ ∃ i ∈ ids, Info.resolve P.info i = some S) ∨
      (∃ specs nm fields, d = Decl.genDecl specs ∧
        Spec.typeSpec nm (Expr.structT fields) ∈ specs ∧ nm.name = o.name ∧
        ∃ fld ∈ fields, some S ∈ (visitTypeExpr P.info fld.2).calls) ∨
      (∃ specs names ty vals nm, d = Decl.genDecl specs ∧
        Spec.valueSpec names ty vals ∈ specs ∧ nm ∈ names ∧ nm.name = o.name ∧
        ∃ v ∈ vals, some S ∈ (visitExpr P.info v).calls))
    (s : St) (hnu : NU s) (h0 : o ∉ s.visited)
    (hok : (visit P fuel (some o) s).out = .ok) :
    S.name ∈ (visit P fuel (some o) s).st.used := by
  rcases fuel with _ | fuel2
  · simp only [visit] at hok
    rw [if_neg h0] at hok
    cases hok
  · simp only [visit] at hok ⊢
    rw [if_neg h0] at hok ⊢
    refine foldR_exec
      (processDecl P.info (fun c s2 => visit P fuel2 c s2) o)
      NU (fun s2 => S.name ∈ s2.used) P.decls
      (fun d2 hd2 s2 h2 =>
        processDecl_rel P (fun _ => True) _ (nu_ctx P) _
          (fun c s3 _ => visit_nu P fuel2 c s3) o d2 hd2 s2 h2)
      (fun d2 hd2 s2 h2 =>
        (processDecl_rel P (fun _ => True) Grow (grow_ctx P) _
          (fun c s3 _ => visit_grow P fuel2 c s3) o d2 hd2 s2).2 h2)
      d hd
      (fun s2 hnu2 hok2 => processDecl_touch P fuel2 o d S hd hcase s2 hnu2 hok2)
      (s.mark o) ((nu_ctx P).qmark s o trivial h0 hnu) hok

/-! ### The glue after the filtered source is written: autoFixImports and
its caller.  The file system is a path-to-content association list and
the imports processor (the external goimports engine) is a parameter. -/

def fsRead (fs : List (String × String)) (p : String) : Option String :=
  match fs with
  | [] => none
  | q :: rest => if q.1 = p then some q.2 else fsRead rest p

def fsWrite (fs : List (String × String)) (p : String) (content : String) :
    List (String × String) :=
  match fs with
  | [] => [(p, content)]
  | q :: rest => if q.1 = p then (p, content) :: rest else q :: fsWrite rest p content

/-- `autoFixImports` of main.go: read the file, run `imports.Process`,
write the fixed text back; any error aborts the function with that error
before the write. -/
def autoFixImports (proc : String → Except String String)
    (fs : List (String × String)) (p : String) :
    Except String (List (String × String)) :=
  match fsRead fs p with
  | none => Except.error "read failed"
  | some src =>
    match proc src with
    | Except.error e => Except.error e
    | Except.ok fixed => Except.ok (fsWrite fs p fixed)

/-- The tail of `main` after `WriteFilteredSource` succeeded: the result
of `autoFixImports(outPath)` is discarded, and the success message is
logged unconditionally (the Bool component). -/
def mainAfterWrite (proc : String → Except String String)
    (fs : List (String × String)) (p : String) :
    List (String × String) × Bool :=
  match autoFixImports proc fs p with
  | Except.ok fs2 => (fs2, true)
  | Except.error _ => (fs, true)

/-! ### Small walker facts -/

theorem seq_nil_left (w : WalkOut) : WalkOut.nil.seq w = w := by
  unfold WalkOut.seq WalkOut.nil
  simp

theorem funcT_noResults_panics (info : Info) (ps : List (List Ident × Expr)) :
    (visitTypeExpr info (Expr.funcT ps none)).panicked = true := by
  simp only [visitTypeExpr]
  unfold WalkOut.seq
  split
  · assumption
  · rfl

/-! ### Concrete programs used by the claims -/

def objA : Obj := ⟨1, "A"⟩

def objB : Obj := ⟨2, "B"⟩

def funcA : Decl :=
  Decl.funcDecl [] ⟨"A", 10⟩ (Expr.funcT [] (some [])) (some [⟨"B", 11⟩])

def funcB : Decl :=
  Decl.funcDecl [] ⟨"B", 20⟩ (Expr.funcT [] (some [])) (some [⟨"A", 21⟩])

/-- A single-file unit with two mutually recursive functions: the body
of `A` calls `B` and the body of `B` calls `A`. -/
def cycleP : Program :=
  { info := { uses := [(11, objB), (21, objA)], defs := [(10, objA), (20, objB)] }
    files := [[funcA, funcB]]
    entry := [funcA, funcB] }

def objX : Obj := ⟨3, "x"⟩

def objI : Obj := ⟨4, "I"⟩

def objT : Obj := ⟨5, "T"⟩

def ifaceEntry : List Decl :=
  [Decl.genDecl [Spec.valueSpec [⟨"x", 30⟩] (some (Expr.ident ⟨"I", 31⟩)) []]]

def ifaceDefs : List Decl :=
  [Decl.genDecl [Spec.typeSpec ⟨"I", 40⟩
      (Expr.interfaceT [([⟨"M", 41⟩], Expr.funcT [] (some [([], Expr.ident ⟨"T", 42⟩)]))])],
   Decl.genDecl [Spec.typeSpec ⟨"T", 50⟩ (Expr.ident ⟨"int", 51⟩)]]

/-- Entry `var x I`; another file declares `interface I { M() T }` and
type `T`.  `T` is reachable only through the interface's method set. -/
def ifaceP : Program :=
  { info := { uses := [(31, objI), (42, objT)], defs := [(30, objX), (40, objI), (50, objT)] }
    files := [ifaceEntry, ifaceDefs]
    entry := ifaceEntry }

def panicEntry : List Decl :=
  [Decl.genDecl [Spec.typeSpec ⟨"S", 60⟩
      (Expr.structT [([⟨"f", 61⟩], Expr.funcT [([⟨"x", 62⟩], Expr.ident ⟨"int", 63⟩)] none)])]]

/-- Entry `type S struct { f func(x int) }`: the field's function type
has a nil result list. -/
def panicP : Program :=
  { info := { uses := [], defs := [(60, (⟨6, "S"⟩ : Obj))] }
    files := [panicEntry]
    entry := panicEntry }

def localDecl : Decl :=
  Decl.funcDecl [] ⟨"A", 70⟩ (Expr.funcT [] (some [])) (some [⟨"b", 71⟩])

/-- A single-file self-contained unit: `func A()` whose body declares a
local variable `b` (a definition occurrence resolved by `Defs`). -/
def localP : Program :=
  { info := { uses := [], defs := [(70, (⟨7, "A"⟩ : Obj)), (71, (⟨8, "b"⟩ : Obj))] }
    files := [[localDecl]]
    entry := [localDecl] }

def impDecl : Decl := Decl.genDecl [Spec.importSpec none "fmt"]

def mainDecl : Decl :=
  Decl.funcDecl [] ⟨"main", 80⟩ (Expr.funcT [] (some [])) (some [])

/-- An entry file carrying an import declaration and one function. -/
def importP : Program :=
  { info := { uses := [], defs := [(80, (⟨9, "main"⟩ : Obj))] }
    files := [[impDecl, mainDecl]]
    entry := [impDecl, mainDecl] }

def funcF1 : Decl := Decl.funcDecl [] ⟨"F", 90⟩ (Expr.funcT [] (some [])) (some [])

def funcF2 : Decl := Decl.funcDecl [] ⟨"F", 91⟩ (Expr.funcT [] (some [])) (some [])

def objF : Obj := ⟨10, "F"⟩

/-- Two files each declaring a function named `F`; only the first is the
entry file's. -/
def collP : Program :=
  { info := { uses := [], defs := [(90, objF)] }
    files := [[funcF1], [funcF2]]
    entry := [funcF1] }

def objS7 : Obj := ⟨11, "S"⟩

def objD : Obj := ⟨12, "D"⟩

def defsEntry : List Decl :=
  [Decl.genDecl [Spec.valueSpec [⟨"x", 100⟩] (some (Expr.ident ⟨"S", 101⟩)) []]]

def defsFile2 : List Decl :=
  [Decl.genDecl [Spec.typeSpec ⟨"S", 110⟩
      (Expr.structT [([⟨"fld", 111⟩], Expr.ident ⟨"D", 112⟩)])],
   Decl.genDecl [Spec.typeSpec ⟨"D", 120⟩ (Expr.ident ⟨"int", 121⟩)]]

/-- Entry `var x S`; `S` is a struct whose field type identifier (uid
112, spelling `D`) is resolved only by the `Defs` table, not by `Uses`. -/
def defsP : Program :=
  { info :=
      { uses := [(101, objS7)]
        defs := [(100, (⟨13, "x"⟩ : Obj)), (110, objS7), (111, (⟨14, "fld"⟩ : Obj)),
                 (112, objD), (120, objD)] }
    files := [defsEntry, defsFile2]
    entry := defsEntry }

/-! ### The claims -/

/-- C1: the closure computation terminates on every input: no amount of
fuel short of the chosen bound is ever exhausted (the visited set is
keyed by resolved symbol identity, grows monotonically inside the finite
universe of resolvable objects, and each symbol is marked before its
declaration is expanded); and on the mutually recursive pair (`A` calls
`B`, `B` calls `A`) the run completes normally with both `A` and `B` in
UsedSet. -/
theorem claim_C1_termination_and_cycle :
    (∀ P : Program, (CollectUsedDeclarations P).out ≠ Outcome.nofuel) ∧
    ((CollectUsedDeclarations cycleP).out = Outcome.ok ∧
      "A" ∈ (CollectUsedDeclarations cycleP).st.used ∧
      "B" ∈ (CollectUsedDeclarations cycleP).st.used) := by
  refine ⟨collect_no_nofuel, ?_, ?_, ?_⟩ <;> decide

/-- C1 witness: the general termination statement applied to the
concrete cyclic program. -/
theorem claim_C1_witness :
    (CollectUsedDeclarations cycleP).out ≠ Outcome.nofuel ∧
    "A" ∈ (CollectUsedDeclarations cycleP).st.used :=
  ⟨claim_C1_termination_and_cycle.1 cycleP,
   claim_C1_termination_and_cycle.2.2.1⟩

/-- C2 counterexample: a self-contained single-file entry (`func A()`
with a local variable `b`) completes, yet UsedSet contains `b`, which is
not among the entry file's top-level declared names, refuting the claim
that UsedSet equals exactly those names. -/
theorem claim_C2_counterexample :
    localP.files = [localP.entry] ∧
    (CollectUsedDeclarations localP).out = Outcome.ok ∧
    "b" ∈ (CollectUsedDeclarations localP).st.used ∧
    "b" ∉ (localP.entry.map declNames).flatten := by
  refine ⟨rfl, ?_, ?_, ?_⟩ <;> decide

/-- C2 amended: for a single-file compilation unit whose run completes,
UsedSet equals exactly the set of names of symbols resolved (use-else-
definition) from the identifier occurrences of the entry file's
declarations — this includes every resolvable top-level declared name
but also inner definition names such as parameters and locals. -/
theorem claim_C2_amended_usedset (P : Program) (hf : P.files = [P.entry])
    (hok : (CollectUsedDeclarations P).out = Outcome.ok) :
    ∀ n, n ∈ (CollectUsedDeclarations P).st.used ↔
      ∃ i ∈ entryIdents P, ∃ o, Info.resolve P.info i = some o ∧ o.name = n := by
  intro n
  constructor
  · exact fun hn => collect_used_sub P hf n hn
  · rintro ⟨i, hi, o, hres, hname⟩
    rw [← hname]
    exact collect_used_sup P i o hi hres hok

/-- C2 witness: the amended characterisation applied to the concrete
single-file cyclic program at the name `A`. -/
theorem claim_C2_witness :
    cycleP.files = [cycleP.entry] ∧
    (CollectUsedDeclarations cycleP).out = Outcome.ok ∧
    ("A" ∈ (CollectUsedDeclarations cycleP).st.used ↔
      ∃ i ∈ entryIdents cycleP, ∃ o,
        Info.resolve cycleP.info i = some o ∧ o.name = "A") :=
  ⟨rfl, by decide, claim_C2_amended_usedset cycleP rfl (by decide) "A"⟩

/-- C3: the type walker is not failure-free: on a function-type
signature whose result field list is nil (as the parser produces for a
resultless signature) it dereferences the nil pointer and panics, for
every resolution table and parameter list; the concrete unit whose
struct field has type `func(x int)` makes the whole analysis abort with
that panic.  The nil-resolution half of the claim does hold: visiting a
nil resolution is a no-op, never a failure. -/
theorem claim_C3_funcT_panics :
    (∀ (info : Info) (ps : List (List Ident × Expr)),
      (visitTypeExpr info (Expr.funcT ps none)).panicked = true) ∧
    (CollectUsedDeclarations panicP).out = Outcome.panicked ∧
    (∀ (P : Program) (fuel : Nat) (s : St),
      visit P fuel none s = ⟨s, Outcome.ok⟩) := by
  refine ⟨funcT_noResults_panics, by decide, ?_⟩
  intro P fuel s
  rcases fuel with _ | fuel2 <;> simp [visit]

/-- C4 counterexample: the entry file's import declaration is a
declaration written directly in the entry file, the run completes, yet
the import declaration is not among the retained declarations (the scan
records only name-matching function, type and value declarations), so
RetainedDeclarations is not a superset of the entry file's declarations. -/
theorem claim_C4_counterexample :
    impDecl ∈ importP.entry ∧
    (CollectUsedDeclarations importP).out = Outcome.ok ∧
    impDecl ∉ (CollectUsedDeclarations importP).st.declMap.map Prod.snd := by
  refine ⟨List.mem_cons_self _ _, by decide, ?_⟩
  intro h
  rcases List.mem_map.mp h with ⟨p, hp, he⟩
  have h2 := (collect_dmgood importP p hp).2
  rw [he] at h2
  simp [impDecl, declMatches] at h2

/-- C4 amended: RetainedDeclarations is always a subset of the unit's
declarations; and an entry-file declaration is retained provided one of
its identifier occurrences resolves to a symbol whose name the
declaration matches and no other declaration of the unit matches that
name (import declarations, unresolved names, and name collisions are
excluded). -/
theorem claim_C4_amended_retained (P : Program) :
    (∀ k d, (k, d) ∈ (CollectUsedDeclarations P).st.declMap → d ∈ P.decls) ∧
    (∀ d i o, d ∈ P.entry → P.entry ∈ P.files → i ∈ declIdents d →
      Info.resolve P.info i = some o → declMatches d o.name = true →
      (∀ d2 ∈ P.decls, declMatches d2 o.name = true → d2 = d) →
      (CollectUsedDeclarations P).out = Outcome.ok →
      (o.name, d) ∈ (CollectUsedDeclarations P).st.declMap) := by
  constructor
  · intro k d2 hm
    exact (collect_dmgood P (k, d2) hm).1
  · intro d i o hd hE hi hres hm huniq hok
    exact collect_retain P o d i hd hE hi hres hm huniq hok

/-- C4 witness: the amended retention statement applied to the concrete
cyclic program, retaining `A`'s declaration under its own name. -/
theorem claim_C4_witness :
    funcA ∈ cycleP.entry ∧
    cycleP.entry ∈ cycleP.files ∧
    (⟨"A", 10⟩ : Ident) ∈ declIdents funcA ∧
    Info.resolve cycleP.info ⟨"A", 10⟩ = some objA ∧
    declMatches funcA objA.name = true ∧
    (CollectUsedDeclarations cycleP).out = Outcome.ok ∧
    (objA.name, funcA) ∈ (CollectUsedDeclarations cycleP).st.declMap := by
  have huniq : ∀ d2 ∈ cycleP.decls, declMatches d2 objA.name = true → d2 = funcA := by
    intro d2 hd2 hm2
    have h3 : d2 = funcA ∨ d2 = funcB := by
      simpa [cycleP, Program.decls] using hd2
    rcases h3 with h3 | h3
    · exact h3
    · subst h3
      exact absurd hm2 (by decide)
  refine ⟨List.mem_cons_self _ _, List.mem_cons_self _ _, ?_, by decide, by decide,
    by decide, ?_⟩
  · simp [funcA, declIdents]
  · exact (claim_C4_amended_retained cycleP).2 funcA ⟨"A", 10⟩ objA
      (List.mem_cons_self _ _) (List.mem_cons_self _ _)
      (by simp [funcA, declIdents]) (by decide) (by decide) huniq (by decide)

/-- C5: walking an interface type expression contributes no calls and no
panic, for every method list; and in the concrete unit where `T` is
mentioned only inside the method set of interface `I`, the run completes
with `I` in UsedSet but `T` absent. -/
theorem claim_C5_interface_not_walked :
    (∀ (info : Info) (ms : List (List Ident × Expr)),
      visitTypeExpr info (Expr.interfaceT ms) = WalkOut.nil) ∧
    ((CollectUsedDeclarations ifaceP).out = Outcome.ok ∧
      "I" ∈ (CollectUsedDeclarations ifaceP).st.used ∧
      "T" ∉ (CollectUsedDeclarations ifaceP).st.used) := by
  refine ⟨?_, by decide, by decide, by decide⟩
  intro info ms
  simp [visitTypeExpr]

/-- C6: the retained map holds exactly one declaration per name (its
keys are free of duplicates), and on a completed run every retained name
maps to the last declaration of the scan order that matches it. -/
theorem claim_C6_last_wins (P : Program) :
    ((CollectUsedDeclarations P).st.declMap.map Prod.fst).Nodup ∧
    ((CollectUsedDeclarations P).out = Outcome.ok →
      ∀ nm ∈ (CollectUsedDeclarations P).st.declMap.map Prod.fst,
        mapLookup (CollectUsedDeclarations P).st.declMap nm = lastMatch P nm) :=
  ⟨collect_keys_nodup P, fun hok nm hmem => collect_lastMatch P nm hok hmem⟩

/-- C6 witness: with two declarations named `F` in scan order, the
retained one is the later, `funcF2`. -/
theorem claim_C6_witness :
    ((CollectUsedDeclarations collP).st.declMap.map Prod.fst).Nodup ∧
    (CollectUsedDeclarations collP).out = Outcome.ok ∧
    "F" ∈ (CollectUsedDeclarations collP).st.declMap.map Prod.fst ∧
    mapLookup (CollectUsedDeclarations collP).st.declMap "F" = lastMatch collP "F" ∧
    lastMatch collP "F" = some funcF2 :=
  ⟨(claim_C6_last_wins collP).1, by decide, by decide,
   (claim_C6_last_wins collP).2 (by decide) "F" (by decide), rfl⟩

/-- C7 counterexample: the identifier occurrence uid 112 inside `S`'s
struct field type is resolved (as a definition occurrence, through the
`Defs` table) to the symbol `D`, the run completes and `S` is expanded,
yet `D` never enters UsedSet: the walkers consult only the `Uses` table,
so a definition-occurrence resolution inside a field type establishes no
use-edge. -/
theorem claim_C7_counterexample :
    Info.resolve defsP.info ⟨"D", 112⟩ = some objD ∧
    (CollectUsedDeclarations defsP).out = Outcome.ok ∧
    "S" ∈ (CollectUsedDeclarations defsP).st.used ∧
    "D" ∉ (CollectUsedDeclarations defsP).st.used := by
  refine ⟨?_, ?_, ?_, ?_⟩ <;> decide

/-- C7 amended: when the closure freshly expands a symbol `o` and its
matching declaration `d`, a use-edge to `S` is established — i.e.
`S.name` enters UsedSet — in each of these cases: an identifier of `d`'s
function body resolved to `S` by the use-else-definition fallback; a
use-resolution of `S` at a position the type walker traverses inside one
of `d`'s struct field types; a use-resolution of `S` at a position the
value walker traverses inside one of `d`'s initializer expressions. -/
theorem claim_C7_amended_edges (P : Program) (fuel : Nat) (o : Obj) (d : Decl)
    (S : Obj) (hd : d ∈ P.decls)
    (hcase :
      (∃ recv nm ftype ids, d = Decl.funcDecl recv nm ftype (some ids) ∧
        nm.name = o.name ∧ ∃ i ∈ ids, Info.resolve P.info i = some S) ∨
      (∃ specs nm fields, d = Decl.genDecl specs ∧
        Spec.typeSpec nm (Expr.structT fields) ∈ specs ∧ nm.name = o.name ∧
        ∃ fld ∈ fields, some S ∈ (visitTypeExpr P.info fld.2).calls) ∨
      (∃ specs names ty vals nm, d = Decl.genDecl specs ∧
        Spec.valueSpec names ty vals ∈ specs ∧ nm ∈ names ∧ nm.name = o.name ∧
        ∃ v ∈ vals, some S ∈ (visitExpr P.info v).calls))
    (s : St) (hnu : NU s) (h0 : o ∉ s.visited)
    (hok : (visit P fuel (some o) s).out = Outcome.ok) :
    S.name ∈ (visit P fuel (some o) s).st.used :=
  visit_touch P fuel o d S hd hcase s hnu h0 hok

/-- C7 witness: expanding `A` in the cyclic program establishes the
use-edge to `B` through `A`'s function body. -/
theorem claim_C7_witness :
    funcA ∈ cycleP.decls ∧
    (visit cycleP 3 (some objA) ⟨[], [], []⟩).out = Outcome.ok ∧
    "B" ∈ (visit cycleP 3 (some objA) ⟨[], [], []⟩).st.used := by
  have hd : funcA ∈ cycleP.decls := by
    simp [cycleP, Program.decls]
  refine ⟨hd, by decide, ?_⟩
  have h := claim_C7_amended_edges cycleP 3 objA funcA objB hd
    (Or.inl ⟨[], ⟨"A", 10⟩, Expr.funcT [] (some []), [⟨"B", 11⟩], rfl, rfl,
      ⟨"B", 11⟩, List.mem_cons_self _ _, by decide⟩)
    ⟨[], [], []⟩ (fun o2 h2 => absurd h2 (List.not_mem_nil o2))
    (by simp) (by decide)
  exact h

/-- C8: the analysis is deterministic as a set-valued function — in the
embedding the used set of a run is definitionally unique — and the only
run-to-run variation of the source, the order in which the declaration
map is ranged over, cannot change the set of retained declaration names:
any two orderings of the retained declarations carry the same names. -/
theorem claim_C8_order_insensitive (P : Program) (ds1 ds2 : List Decl)
    (h1 : List.Perm ds1 ((CollectUsedDeclarations P).st.declMap.map Prod.snd))
    (h2 : List.Perm ds2 ((CollectUsedDeclarations P).st.declMap.map Prod.snd)) :
    (CollectUsedDeclarations P).st.used = (CollectUsedDeclarations P).st.used ∧
    ∀ n, (n ∈ (ds1.map declNames).flatten ↔ n ∈ (ds2.map declNames).flatten) := by
  refine ⟨rfl, ?_⟩
  have key : ∀ (ds : List Decl),
      List.Perm ds ((CollectUsedDeclarations P).st.declMap.map Prod.snd) →
      ∀ n, (n ∈ (ds.map declNames).flatten ↔
        ∃ d ∈ (CollectUsedDeclarations P).st.declMap.map Prod.snd, n ∈ declNames d) := by
    intro ds hperm n
    rw [List.mem_flatten]
    constructor
    · rintro ⟨l, hl, hn⟩
      rcases List.mem_map.mp hl with ⟨d, hd, he⟩
      exact ⟨d, hperm.mem_iff.mp hd, by rw [he]; exact hn⟩
    · rintro ⟨d, hd, hn⟩
      exact ⟨declNames d, List.mem_map_of_mem _ (hperm.mem_iff.mpr hd), hn⟩
  intro n
  rw [key ds1 h1 n, key ds2 h2 n]

/-- C8 witness: the identity ordering and the reversed ordering of the
cyclic program's retained declarations carry the same names. -/
theorem claim_C8_witness :
    List.Perm ((CollectUsedDeclarations cycleP).st.declMap.map Prod.snd)
      ((CollectUsedDeclarations cycleP).st.declMap.map Prod.snd) ∧
    List.Perm ((CollectUsedDeclarations cycleP).st.declMap.map Prod.snd).reverse
      ((CollectUsedDeclarations cycleP).st.declMap.map Prod.snd) ∧
    ("A" ∈ (((CollectUsedDeclarations cycleP).st.declMap.map Prod.snd).map
        declNames).flatten ↔
      "A" ∈ ((((CollectUsedDeclarations cycleP).st.declMap.map Prod.snd).reverse).map
        declNames).flatten) :=
  ⟨List.Perm.refl _, List.reverse_perm _,
   (claim_C8_order_insensitive cycleP _ _ (List.Perm.refl _) (List.reverse_perm _)).2 "A"⟩

/-- C9: when the import-normalization step fails after the filtered
source was written, the caller discards the error: the run still ends on
the success path (the Bool component stays true) and the file system —
in particular the already-written unnormalized output file — is left
exactly as it was. -/
theorem claim_C9_error_discarded (proc : String → Except String String)
    (fs : List (String × String)) (p : String)
    (h : ∃ e, autoFixImports proc fs p = Except.error e) :
    mainAfterWrite proc fs p = (fs, true) := by
  rcases h with ⟨e, he⟩
  unfold mainAfterWrite
  rw [he]

/-- C9 witness: a processor that always fails leaves the written file in
place and the caller finishes normally. -/
theorem claim_C9_witness :
    (∃ e, autoFixImports (fun _ => Except.error "syntax")
      [("output/main.go", "package main")] "output/main.go" = Except.error e) ∧
    mainAfterWrite (fun _ => Except.error "syntax")
      [("output/main.go", "package main")] "output/main.go"
      = ([("output/main.go", "package main")], true) :=
  ⟨⟨"syntax", rfl⟩,
   claim_C9_error_discarded _ _ _ ⟨"syntax", rfl⟩⟩

/-- C10: the walkers' leaves are safe: a nil type expression, a literal
constant, a BadExpr, a function literal, a nil value expression and an
unhandled value form (such as a pointer dereference) all yield no calls
and no panic; and a composite literal with an elided (nil) type walks
exactly its elements. -/
theorem claim_C10_leaves_safe :
    (∀ info : Info, visitTypeExpr info Expr.nilE = WalkOut.nil) ∧
    (∀ (info : Info) (v : String), visitExpr info (Expr.basicLit v) = WalkOut.nil) ∧
    (∀ info : Info, visitExpr info Expr.badExpr = WalkOut.nil) ∧
    (∀ (info : Info) (ty : Expr) (body : List Ident),
      visitExpr info (Expr.funcLit ty body) = WalkOut.nil) ∧
    (∀ info : Info, visitExpr info Expr.nilE = WalkOut.nil) ∧
    (∀ (info : Info) (x : Expr), visitExpr info (Expr.star x) = WalkOut.nil) ∧
    (∀ (info : Info) (elts : List Expr),
      visitExpr info (Expr.compositeLit Expr.nilE elts) = visitExprList info elts) := by
  refine ⟨?_, ?_, ?_, ?_, ?_, ?_, ?_⟩ <;> intros <;>
    simp [visitExpr, visitTypeExpr, seq_nil_left]
